import Mathlib

/-!
Verification of the retrieval & ranking engine of the `seok_lee_agentic_rag_project`
backend against its natural-language specification.

The Python source is shallowly embedded: pure functions become Lean functions,
stateful CRUD code becomes explicit state passing, float scores become `ℚ`
(exact rational arithmetic; the properties verified are order/threshold/length
properties that do not depend on rounding), and cosine similarity — which
involves a square root — takes values in `ℝ`.  Fallible code returns
`Except`/`Option` or an explicit "raised" flag together with the state the
Python object is left in after the `except` handler ran.
-/

namespace RagSpec

/-! ## Stable sorting by a rational key

Python's `list.sort(key=..., reverse=True)` and `sorted(..., reverse=True)` are
stable: elements are ordered by descending key, ties keeping their original
relative order.  We model this by left-fold insertion: each successive element
is inserted after all already-placed elements whose key is not smaller
(descending) / not larger (ascending), which reproduces exactly the stable
order. -/

def insertDescBy {α : Type} (key : α → ℚ) (x : α) : List α → List α
  | [] => [x]
  | y :: ys => if key y < key x then x :: y :: ys else y :: insertDescBy key x ys

def sortDescBy {α : Type} (key : α → ℚ) (l : List α) : List α :=
  l.foldl (fun acc x => insertDescBy key x acc) []

def insertAscBy {α : Type} (key : α → ℚ) (x : α) : List α → List α
  | [] => [x]
  | y :: ys => if key x < key y then x :: y :: ys else y :: insertAscBy key x ys

def sortAscBy {α : Type} (key : α → ℚ) (l : List α) : List α :=
  l.foldl (fun acc x => insertAscBy key x acc) []

theorem insertDescBy_perm {α : Type} (key : α → ℚ) (x : α) (l : List α) :
    (insertDescBy key x l).Perm (x :: l) := by
  induction l with
  | nil => simp [insertDescBy]
  | cons y ys ih =>
    simp only [insertDescBy]
    split
    · exact List.Perm.refl _
    · exact (List.Perm.cons y ih).trans (List.Perm.swap x y ys)

theorem insertAscBy_perm {α : Type} (key : α → ℚ) (x : α) (l : List α) :
    (insertAscBy key x l).Perm (x :: l) := by
  induction l with
  | nil => simp [insertAscBy]
  | cons y ys ih =>
    simp only [insertAscBy]
    split
    · exact List.Perm.refl _
    · exact (List.Perm.cons y ih).trans (List.Perm.swap x y ys)

theorem foldl_insertDescBy_perm {α : Type} (key : α → ℚ) (l : List α) :
    ∀ acc : List α,
      (l.foldl (fun acc x => insertDescBy key x acc) acc).Perm (l ++ acc) := by
  induction l with
  | nil => intro acc; simp
  | cons x xs ih =>
    intro acc
    simp only [List.foldl_cons, List.cons_append]
    refine (ih _).trans ?_
    exact (((insertDescBy_perm key x acc).append_left xs).trans List.perm_middle)

theorem sortDescBy_perm {α : Type} (key : α → ℚ) (l : List α) :
    (sortDescBy key l).Perm l := by
  simpa using foldl_insertDescBy_perm key l []

theorem foldl_insertAscBy_perm {α : Type} (key : α → ℚ) (l : List α) :
    ∀ acc : List α,
      (l.foldl (fun acc x => insertAscBy key x acc) acc).Perm (l ++ acc) := by
  induction l with
  | nil => intro acc; simp
  | cons x xs ih =>
    intro acc
    simp only [List.foldl_cons, List.cons_append]
    refine (ih _).trans ?_
    exact (((insertAscBy_perm key x acc).append_left xs).trans List.perm_middle)

theorem sortAscBy_perm {α : Type} (key : α → ℚ) (l : List α) :
    (sortAscBy key l).Perm l := by
  simpa using foldl_insertAscBy_perm key l []

/-- Descending sortedness: every element's key dominates all later keys. -/
def SortedDesc {α : Type} (key : α → ℚ) (l : List α) : Prop :=
  l.Pairwise (fun a b => key b ≤ key a)

/-- Ascending sortedness: every element's key is at most all later keys. -/
def SortedAsc {α : Type} (key : α → ℚ) (l : List α) : Prop :=
  l.Pairwise (fun a b => key a ≤ key b)

theorem sortedDesc_insertDescBy {α : Type} (key : α → ℚ) (x : α) (l : List α)
    (hl : SortedDesc key l) : SortedDesc key (insertDescBy key x l) := by
  induction l with
  | nil => simp [insertDescBy, SortedDesc]
  | cons y ys ih =>
    simp only [SortedDesc, List.pairwise_cons] at hl
    simp only [insertDescBy]
    split
    · rename_i hlt
      refine List.Pairwise.cons ?_ (List.Pairwise.cons hl.1 hl.2)
      intro b hb
      rcases List.mem_cons.mp hb with rfl | hb2
      · exact le_of_lt hlt
      · exact le_trans (hl.1 b hb2) (le_of_lt hlt)
    · rename_i hge
      push_neg at hge
      refine List.Pairwise.cons ?_ (ih hl.2)
      intro b hb
      have hmem := (insertDescBy_perm key x ys).mem_iff.mp hb
      rcases List.mem_cons.mp hmem with rfl | hb2
      · exact hge
      · exact hl.1 b hb2

theorem sortedAsc_insertAscBy {α : Type} (key : α → ℚ) (x : α) (l : List α)
    (hl : SortedAsc key l) : SortedAsc key (insertAscBy key x l) := by
  induction l with
  | nil => simp [insertAscBy, SortedAsc]
  | cons y ys ih =>
    simp only [SortedAsc, List.pairwise_cons] at hl
    simp only [insertAscBy]
    split
    · rename_i hlt
      refine List.Pairwise.cons ?_ (List.Pairwise.cons hl.1 hl.2)
      intro b hb
      rcases List.mem_cons.mp hb with rfl | hb2
      · exact le_of_lt hlt
      · exact le_trans (le_of_lt hlt) (hl.1 b hb2)
    · rename_i hge
      push_neg at hge
      refine List.Pairwise.cons ?_ (ih hl.2)
      intro b hb
      have hmem := (insertAscBy_perm key x ys).mem_iff.mp hb
      rcases List.mem_cons.mp hmem with rfl | hb2
      · exact hge
      · exact hl.1 b hb2

theorem sortDescBy_sorted {α : Type} (key : α → ℚ) (l : List α) :
    SortedDesc key (sortDescBy key l) := by
  suffices h : ∀ acc : List α, SortedDesc key acc →
      SortedDesc key (l.foldl (fun acc x => insertDescBy key x acc) acc) by
    exact h [] (by simp [SortedDesc])
  induction l with
  | nil => intro acc hacc; simpa using hacc
  | cons x xs ih =>
    intro acc hacc
    exact ih _ (sortedDesc_insertDescBy key x acc hacc)

theorem sortAscBy_sorted {α : Type} (key : α → ℚ) (l : List α) :
    SortedAsc key (sortAscBy key l) := by
  suffices h : ∀ acc : List α, SortedAsc key acc →
      SortedAsc key (l.foldl (fun acc x => insertAscBy key x acc) acc) by
    exact h [] (by simp [SortedAsc])
  induction l with
  | nil => intro acc hacc; simpa using hacc
  | cons x xs ih =>
    intro acc hacc
    exact ih _ (sortedAsc_insertAscBy key x acc hacc)

theorem sortDescBy_length {α : Type} (key : α → ℚ) (l : List α) :
    (sortDescBy key l).length = l.length :=
  (sortDescBy_perm key l).length_eq

theorem sortAscBy_length {α : Type} (key : α → ℚ) (l : List α) :
    (sortAscBy key l).length = l.length :=
  (sortAscBy_perm key l).length_eq

theorem insertDescBy_of_forall_lt {α : Type} (key : α → ℚ) (x : α) (l : List α)
    (h : ∀ b ∈ l, key b < key x) : insertDescBy key x l = x :: l := by
  cases l with
  | nil => rfl
  | cons z zs =>
    simp only [insertDescBy]
    rw [if_pos (h z (List.mem_cons_self z zs))]

theorem filter_insertDescBy {α : Type} (key : α → ℚ) (p : α → Bool) (x : α)
    (l : List α) (hl : SortedDesc key l) :
    (insertDescBy key x l).filter p =
      if p x then insertDescBy key x (l.filter p) else l.filter p := by
  induction l with
  | nil =>
    simp only [insertDescBy, List.filter]
    cases hpx : p x <;> simp [hpx, insertDescBy]
  | cons y ys ih =>
    simp only [SortedDesc, List.pairwise_cons] at hl
    simp only [insertDescBy]
    by_cases hlt : key y < key x
    · rw [if_pos hlt]
      cases hpx : p x with
      | false => simp [List.filter, hpx]
      | true =>
        cases hpy : p y with
        | true =>
          simp only [List.filter, hpx, hpy, if_pos]
          simp [insertDescBy, if_pos hlt]
        | false =>
          have hins := insertDescBy_of_forall_lt key x (ys.filter p)
            (fun b hb => lt_of_le_of_lt (hl.1 b (List.mem_of_mem_filter hb)) hlt)
          simp [List.filter, hpx, hpy, hins]
    · rw [if_neg hlt]
      cases hpx : p x with
      | true =>
        cases hpy : p y with
        | true =>
          simp [List.filter, hpy, ih hl.2, hpx, insertDescBy, if_neg hlt]
        | false =>
          simp [List.filter, hpy, ih hl.2, hpx]
      | false =>
        simp [List.filter, ih hl.2, hpx]

theorem filter_sortDescBy {α : Type} (key : α → ℚ) (p : α → Bool) (l : List α) :
    (sortDescBy key l).filter p = sortDescBy key (l.filter p) := by
  suffices h : ∀ acc : List α, SortedDesc key acc →
      (l.foldl (fun acc x => insertDescBy key x acc) acc).filter p =
        (l.filter p).foldl (fun acc x => insertDescBy key x acc) (acc.filter p) by
    simpa [sortDescBy] using h [] (by simp [SortedDesc])
  induction l with
  | nil => intro acc _; simp
  | cons x xs ih =>
    intro acc hacc
    simp only [List.foldl_cons]
    rw [ih _ (sortedDesc_insertDescBy key x acc hacc),
      filter_insertDescBy key p x acc hacc]
    cases hpx : p x with
    | true => simp [List.filter, hpx]
    | false => simp [List.filter, hpx]

theorem filter_take_of_sortedDesc {α : Type} (key : α → ℚ) (p : α → Bool)
    (l : List α) (hl : SortedDesc key l)
    (hp : ∀ a b : α, key b ≤ key a → p a = false → p b = false) :
    ∀ k : ℕ, (l.take k).filter p = (l.filter p).take k := by
  induction l with
  | nil => intro k; simp
  | cons y ys ih =>
    intro k
    simp only [SortedDesc, List.pairwise_cons] at hl
    cases k with
    | zero => simp
    | succ k =>
      cases hpy : p y with
      | true =>
        simp only [List.take, List.filter, hpy]
        rw [ih hl.2 k]
      | false =>
        simp only [List.take, List.filter, hpy]
        have hnil : ys.filter p = [] := by
          rw [List.filter_eq_nil_iff]
          intro b hb
          simpa using hp y b (hl.1 b hb) hpy
        have htail : (ys.take k).filter p = [] := by
          rw [List.filter_eq_nil_iff]
          intro b hb
          simpa using hp y b (hl.1 b (List.mem_of_mem_take hb)) hpy
        rw [hnil, htail, List.take_nil]

/-! ## FixedChunker (claim C2) — `src/backend/src/services/faiss/core/chunking.py`

`FixedChunker.__init__` raises when `chunk_overlap >= chunk_size` (the spec's
`ConfigError` taxonomy entry, a `ValueError` in the source).  `chunk` splits
the text into whitespace-separated words and emits word windows of
`chunk_size` words advancing by `step = max(1, chunk_size - chunk_overlap)`,
stopping after the first window that reaches the end of the word list. -/

/-- Helper for `splitWords`: scan the character list, `acc` holding the
(reversed) characters of the word currently being read. -/
def splitWordsGo : List Char → List Char → List String
  | [], acc => if acc = [] then [] else [String.mk acc.reverse]
  | c :: rest, acc =>
    if c.isWhitespace then
      if acc = [] then splitWordsGo rest []
      else String.mk acc.reverse :: splitWordsGo rest []
    else splitWordsGo rest (c :: acc)

/-- Python `str.split()` with no separator: split on runs of whitespace and
discard empty pieces.  Also used for `len(query.split())` in the semantic
cache. -/
def splitWords (t : String) : List String := splitWordsGo t.data []

inductive ConfigError : Type
  | overlapNotLessThanSize
deriving DecidableEq, Repr

structure FixedChunkerCfg where
  chunkSize : ℕ
  chunkOverlap : ℕ
deriving DecidableEq, Repr

/-- Embedding of `FixedChunker.__init__`: `chunk_overlap >= chunk_size` is a
fatal configuration error. -/
def fixedChunkerMk (size overlap : ℕ) : Except ConfigError FixedChunkerCfg :=
  if overlap ≥ size then .error .overlapNotLessThanSize
  else .ok ⟨size, overlap⟩

/-- The `for i in range(0, len(words), step)` loop of `FixedChunker.chunk`:
emit the window of `chunk_size` words starting at `i` (dropping an empty join
exactly as the source's `if chunk:` guard does) and stop after the first
window with `i + chunk_size >= len(words)`. -/
def chunkWindows (size step : ℕ) (hstep : 0 < step) (words : List String) (i : ℕ) :
    List String :=
  let c := String.intercalate " " ((words.drop i).take size)
  if words.length ≤ i + size then
    (if c = "" then [] else [c])
  else
    (if c = "" then [] else [c]) ++ chunkWindows size step hstep words (i + step)
termination_by words.length - i
decreasing_by
  rename_i h
  simp only [not_le] at h
  omega

/-- The start offsets the loop visits, for reasoning about `chunkWindows`. -/
def windowStarts (size step : ℕ) (hstep : 0 < step) (n i : ℕ) : List ℕ :=
  if n ≤ i + size then [i] else i :: windowStarts size step hstep n (i + step)
termination_by n - i
decreasing_by
  rename_i h
  simp only [not_le] at h
  omega

/-- Embedding of `FixedChunker.chunk`.  The source's two early returns
(`not text.strip()` and `not words`) coincide: the stripped text is empty
exactly when the whitespace-split word list is. -/
def fixedChunk (size overlap : ℕ) (text : String) : List String :=
  let words := splitWords text
  if words = [] then []
  else chunkWindows size (max 1 (size - overlap)) (by omega) words 0

theorem length_pos_of_ne_empty (w : String) (h : w ≠ "") : 0 < w.length := by
  cases hw : w.data with
  | nil =>
    exact absurd (String.ext (show w.data = String.data "" from hw)) h
  | cons c cs =>
    have : w.length = w.data.length := rfl
    rw [this, hw]
    simp

theorem intercalateGo_length_ge (s : String) :
    ∀ (as : List String) (acc : String),
      acc.length ≤ (String.intercalate.go acc s as).length := by
  intro as
  induction as with
  | nil =>
    intro acc
    simp [String.intercalate.go]
  | cons a tl ih =>
    intro acc
    refine le_trans ?_ (ih (acc ++ s ++ a))
    simp only [String.length_append]
    omega

theorem intercalate_ne_empty (w : String) (ws : List String) (h : w ≠ "") :
    String.intercalate " " (w :: ws) ≠ "" := by
  intro hc
  have h1 : 0 < w.length := length_pos_of_ne_empty w h
  have h2 : w.length ≤ (String.intercalate " " (w :: ws)).length :=
    intercalateGo_length_ge " " ws w
  rw [hc] at h2
  simp at h2
  omega

theorem windowStarts_getElem (size step : ℕ) (hstep : 0 < step) (n : ℕ) :
    ∀ i : ℕ, ∀ j : ℕ, j < (windowStarts size step hstep n i).length →
      (windowStarts size step hstep n i)[j]? = some (i + j * step) := by
  intro i
  induction i using windowStarts.induct size step hstep n with
  | case1 i hbase =>
    intro j hj
    rw [windowStarts.eq_def, if_pos hbase] at hj ⊢
    simp only [List.length_singleton] at hj
    interval_cases j
    simp
  | case2 i hrec ih =>
    intro j hj
    rw [windowStarts.eq_def, if_neg hrec] at hj ⊢
    cases j with
    | zero => simp
    | succ j =>
      rw [List.getElem?_cons_succ, ih j (by simpa using hj)]
      congr 1
      ring

theorem windowStarts_ne_nil (size step : ℕ) (hstep : 0 < step) (n : ℕ) (i : ℕ) :
    windowStarts size step hstep n i ≠ [] := by
  rw [windowStarts.eq_def]
  split <;> simp

theorem windowStarts_inner (size step : ℕ) (hstep : 0 < step) (n : ℕ) :
    ∀ i : ℕ, ∀ j : ℕ, j + 1 < (windowStarts size step hstep n i).length →
      i + j * step + size < n := by
  intro i
  induction i using windowStarts.induct size step hstep n with
  | case1 i hbase =>
    intro j hj
    rw [windowStarts.eq_def, if_pos hbase] at hj
    simp at hj
  | case2 i hrec ih =>
    intro j hj
    rw [windowStarts.eq_def, if_neg hrec] at hj
    cases j with
    | zero =>
      simpa using lt_of_not_le hrec
    | succ j =>
      have := ih j (by simpa using hj)
      have harith : i + step + j * step = i + (j + 1) * step := by ring
      omega

theorem windowStarts_last (size step : ℕ) (hstep : 0 < step) (n : ℕ) :
    ∀ i : ℕ,
      n ≤ i + ((windowStarts size step hstep n i).length - 1) * step + size := by
  intro i
  induction i using windowStarts.induct size step hstep n with
  | case1 i hbase =>
    rw [windowStarts.eq_def, if_pos hbase]
    simpa using hbase
  | case2 i hrec ih =>
    rw [windowStarts.eq_def, if_neg hrec]
    have hlen : 1 ≤ (windowStarts size step hstep n (i + step)).length :=
      List.length_pos.mpr (windowStarts_ne_nil size step hstep n (i + step))
    simp only [List.length_cons, Nat.add_sub_cancel]
    have harith :
        i + (windowStarts size step hstep n (i + step)).length * step =
          (i + step) + ((windowStarts size step hstep n (i + step)).length - 1) * step := by
      cases hL : (windowStarts size step hstep n (i + step)).length with
      | zero => omega
      | succ m =>
        simp only [Nat.succ_sub_one]
        ring
    omega

theorem chunkWindows_eq_map (size step : ℕ) (hstep : 0 < step)
    (hss : step ≤ size) (words : List String)
    (hw : ∀ w ∈ words, w ≠ "") :
    ∀ i : ℕ, i < words.length →
      chunkWindows size step hstep words i =
        (windowStarts size step hstep words.length i).map
          (fun j => String.intercalate " " ((words.drop j).take size)) := by
  intro i
  induction i using windowStarts.induct size step hstep words.length with
  | case1 i hbase =>
    intro hi
    have hne : String.intercalate " " ((words.drop i).take size) ≠ "" := by
      have hdrop : words.drop i ≠ [] := by
        intro hc
        have := congrArg List.length hc
        simp at this
        omega
      cases hd : (words.drop i).take size with
      | nil =>
        exfalso
        have := congrArg List.length hd
        simp at this
        omega
      | cons a l =>
        refine intercalate_ne_empty a l ?_
        have ha : a ∈ words := by
          have hm : a ∈ (words.drop i).take size := by
            rw [hd]
            exact List.mem_cons_self a l
          exact List.mem_of_mem_drop (List.mem_of_mem_take hm)
        exact hw a ha
    rw [chunkWindows.eq_def, windowStarts.eq_def]
    simp only [if_pos hbase, if_neg hne]
    simp
  | case2 i hrec ih =>
    intro hi
    have hne : String.intercalate " " ((words.drop i).take size) ≠ "" := by
      have hdrop : words.drop i ≠ [] := by
        intro hc
        have := congrArg List.length hc
        simp at this
        omega
      cases hd : (words.drop i).take size with
      | nil =>
        exfalso
        have := congrArg List.length hd
        simp at this
        omega
      | cons a l =>
        refine intercalate_ne_empty a l ?_
        have ha : a ∈ words := by
          have hm : a ∈ (words.drop i).take size := by
            rw [hd]
            exact List.mem_cons_self a l
          exact List.mem_of_mem_drop (List.mem_of_mem_take hm)
        exact hw a ha
    have hnext : i + step < words.length := by
      have := lt_of_not_le hrec
      omega
    rw [chunkWindows.eq_def, windowStarts.eq_def]
    simp only [if_neg hrec, if_neg hne, ih hnext]
    simp

theorem splitWordsGo_mem_ne_empty :
    ∀ (cs : List Char) (acc : List Char) (w : String),
      w ∈ splitWordsGo cs acc → w ≠ "" := by
  intro cs
  induction cs with
  | nil =>
    intro acc w hw
    simp only [splitWordsGo] at hw
    split at hw
    · simp at hw
    · rename_i hacc
      simp only [List.mem_singleton] at hw
      subst hw
      intro hc
      have : acc.reverse = [] := congrArg String.data hc
      simp at this
      exact hacc this
  | cons c rest ih =>
    intro acc w hw
    simp only [splitWordsGo] at hw
    split at hw
    · split at hw
      · exact ih [] w hw
      · rename_i hacc
        rcases List.mem_cons.mp hw with rfl | hw2
        · intro hc
          have : acc.reverse = [] := congrArg String.data hc
          simp at this
          exact hacc this
        · exact ih [] w hw2
    · exact ih (c :: acc) w hw

theorem splitWords_mem_ne_empty (t : String) (w : String) (hw : w ∈ splitWords t) :
    w ≠ "" :=
  splitWordsGo_mem_ne_empty t.data [] w hw

/-- The word window of `fixedChunk size overlap text` that starts at word
offset `j * (size - overlap)`. -/
def fcWindow (size overlap : ℕ) (text : String) (j : ℕ) : List String :=
  ((splitWords text).drop (j * (size - overlap))).take size

theorem fcWindow_overlap (size overlap : ℕ) (hov : overlap < size)
    (text : String) (j : ℕ) :
    (fcWindow size overlap text j).drop (size - overlap) =
      (fcWindow size overlap text (j + 1)).take overlap := by
  unfold fcWindow
  rw [List.drop_take, List.drop_drop, List.take_take]
  have h1 : size - (size - overlap) = overlap := by omega
  have h2 : j * (size - overlap) + (size - overlap) = (j + 1) * (size - overlap) := by
    ring
  have h3 : min overlap size = overlap := by omega
  rw [h1, h2, h3]

/-- C2: for every `chunk_size S` and `chunk_overlap O` with `O < S`, the fixed
chunker on a text of `N > 0` words produces word windows advancing by step
`S - O` (the `j`-th chunk is the join of the window starting at word
`j * (S - O)`), each of exactly `S` words except a possibly shorter (but
nonempty) last one, together covering all `N` words, with adjacent chunks
sharing exactly `O` words; constructing the chunker with `O ≥ S` is a
`ConfigError`; a text whose whitespace split is empty yields zero chunks. -/
theorem fixedChunker_claim :
    (∀ size overlap : ℕ, size ≤ overlap →
      fixedChunkerMk size overlap = Except.error ConfigError.overlapNotLessThanSize) ∧
    (∀ size overlap : ℕ, ∀ text : String, splitWords text = [] →
      fixedChunk size overlap text = []) ∧
    (∀ size overlap : ℕ, overlap < size → ∀ text : String,
      0 < (splitWords text).length →
      0 < (fixedChunk size overlap text).length ∧
      (∀ j : ℕ, j < (fixedChunk size overlap text).length →
        (fixedChunk size overlap text)[j]? =
          some (String.intercalate " " (fcWindow size overlap text j))) ∧
      (∀ j : ℕ, j + 1 < (fixedChunk size overlap text).length →
        (fcWindow size overlap text j).length = size) ∧
      (fcWindow size overlap text ((fixedChunk size overlap text).length - 1)).length
        = (splitWords text).length
            - ((fixedChunk size overlap text).length - 1) * (size - overlap) ∧
      0 < (fcWindow size overlap text ((fixedChunk size overlap text).length - 1)).length ∧
      (fcWindow size overlap text ((fixedChunk size overlap text).length - 1)).length ≤ size ∧
      (splitWords text).length ≤
        ((fixedChunk size overlap text).length - 1) * (size - overlap) + size ∧
      (∀ j : ℕ, j + 1 < (fixedChunk size overlap text).length →
        (fcWindow size overlap text j).drop (size - overlap) =
          (fcWindow size overlap text (j + 1)).take overlap ∧
        ((fcWindow size overlap text j).drop (size - overlap)).length = overlap)) := by
  refine ⟨?_, ?_, ?_⟩
  · intro size overlap h
    simp [fixedChunkerMk, h]
  · intro size overlap text h
    simp [fixedChunk, h]
  · intro size overlap hov text hN
    have hw : ∀ w ∈ splitWords text, w ≠ "" := splitWords_mem_ne_empty text
    have hne : splitWords text ≠ [] := by
      intro hc
      rw [hc] at hN
      simp at hN
    have hstep : (0:ℕ) < max 1 (size - overlap) := by omega
    have hss : max 1 (size - overlap) ≤ size := by omega
    have hsv : max 1 (size - overlap) = size - overlap := by omega
    have hfc : fixedChunk size overlap text =
        chunkWindows size (max 1 (size - overlap)) (by omega) (splitWords text) 0 := by
      simp [fixedChunk, hne]
    have hmap := chunkWindows_eq_map size (max 1 (size - overlap)) hstep hss
      (splitWords text) hw 0 hN
    have hlen : (fixedChunk size overlap text).length =
        (windowStarts size (max 1 (size - overlap)) hstep (splitWords text).length 0).length := by
      rw [hfc, hmap, List.length_map]
    have hwsne :=
      windowStarts_ne_nil size (max 1 (size - overlap)) hstep (splitWords text).length 0
    have hkpos : 0 < (fixedChunk size overlap text).length := by
      rw [hlen]
      exact List.length_pos.mpr hwsne
    have hinner : ∀ j : ℕ, j + 1 < (fixedChunk size overlap text).length →
        j * (size - overlap) + size < (splitWords text).length := by
      intro j hj
      have := windowStarts_inner size (max 1 (size - overlap)) hstep
        (splitWords text).length 0 j (by rw [hlen] at hj; exact hj)
      rw [hsv] at this
      omega
    have hlast := windowStarts_last size (max 1 (size - overlap)) hstep
      (splitWords text).length 0
    rw [← hlen, hsv] at hlast
    have hcover : (splitWords text).length ≤
        ((fixedChunk size overlap text).length - 1) * (size - overlap) + size := by
      omega
    have hlaststart : ((fixedChunk size overlap text).length - 1) * (size - overlap) <
        (splitWords text).length := by
      rcases Nat.lt_or_ge (fixedChunk size overlap text).length 2 with hk | hk
      · have hk1 : (fixedChunk size overlap text).length = 1 := by omega
        simpa [hk1] using hN
      · obtain ⟨m, hm⟩ : ∃ m, (fixedChunk size overlap text).length = m + 2 :=
          ⟨(fixedChunk size overlap text).length - 2, by omega⟩
        have hin := hinner m (by omega)
        have hmul : ((fixedChunk size overlap text).length - 1) * (size - overlap)
            = m * (size - overlap) + (size - overlap) := by
          rw [hm]
          have h21 : m + 2 - 1 = m + 1 := by omega
          rw [h21]
          ring
        omega
    refine ⟨hkpos, ?_, ?_, ?_, ?_, ?_, hcover, ?_⟩
    · intro j hj
      rw [hfc, hmap, List.getElem?_map,
        windowStarts_getElem size (max 1 (size - overlap)) hstep
          (splitWords text).length 0 j (by rw [hlen] at hj; exact hj)]
      have hidx : 0 + j * max 1 (size - overlap) = j * (size - overlap) := by
        rw [hsv]
        omega
      rw [hidx]
      rfl
    · intro j hj
      have := hinner j hj
      simp only [fcWindow, List.length_take, List.length_drop]
      omega
    · simp only [fcWindow, List.length_take, List.length_drop]
      omega
    · simp only [fcWindow, List.length_take, List.length_drop]
      omega
    · simp only [fcWindow, List.length_take, List.length_drop]
      omega
    · intro j hj
      refine ⟨fcWindow_overlap size overlap hov text j, ?_⟩
      rw [fcWindow_overlap size overlap hov text j]
      have := hinner j hj
      have hmul : (j + 1) * (size - overlap) = j * (size - overlap) + (size - overlap) := by
        ring
      simp only [fcWindow, List.length_take, List.length_drop]
      omega

/-- Witness for C2 at the spec's own scenario: `FixedChunker(5, 2)` on a
10-word text: there are chunks, the chunk at position 1 is the window of 5
words starting at word 3, the full windows hold 5 words each, adjacent
windows share exactly 2 words; `FixedChunker(2, 3)` is a configuration error;
a whitespace-only text chunks to nothing. -/
theorem fixedChunker_claim_witness :
    fixedChunkerMk 2 3 = Except.error ConfigError.overlapNotLessThanSize ∧
    fixedChunk 5 2 "  \t " = [] ∧
    0 < (fixedChunk 5 2 "w1 w2 w3 w4 w5 w6 w7 w8 w9 w10").length ∧
    (1 < (fixedChunk 5 2 "w1 w2 w3 w4 w5 w6 w7 w8 w9 w10").length →
      (fixedChunk 5 2 "w1 w2 w3 w4 w5 w6 w7 w8 w9 w10")[1]? =
        some (String.intercalate " "
          (fcWindow 5 2 "w1 w2 w3 w4 w5 w6 w7 w8 w9 w10" 1))) ∧
    (0 + 1 < (fixedChunk 5 2 "w1 w2 w3 w4 w5 w6 w7 w8 w9 w10").length →
      (fcWindow 5 2 "w1 w2 w3 w4 w5 w6 w7 w8 w9 w10" 0).length = 5 ∧
      ((fcWindow 5 2 "w1 w2 w3 w4 w5 w6 w7 w8 w9 w10" 0).drop 3).length = 2) := by
  have h1 := fixedChunker_claim.1 2 3 (by omega)
  have h2 := fixedChunker_claim.2.1 5 2 "  \t " (by decide)
  have h3 := fixedChunker_claim.2.2 5 2 (by omega) "w1 w2 w3 w4 w5 w6 w7 w8 w9 w10"
    (by decide)
  refine ⟨h1, h2, h3.1, ?_, ?_⟩
  · intro hk
    exact h3.2.1 1 hk
  · intro hk
    refine ⟨h3.2.2.1 0 hk, ?_⟩
    have := (h3.2.2.2.2.2.2.2 0 hk).2
    simpa using this

/-! ## VectorSearchService.search (claim C3) — `src/backend/src/services/faiss/vector.py`

The embedder is opaque, so the stored vectors live in an arbitrary type `V`
and FAISS's squared-L2 distance between the encoded query and a stored vector
is an arbitrary function `dist : V → V → ℚ`.  `index = none` models
`self.index is None`. -/

/-- The FAISS `IndexFlatL2.search` call on a flat index: every (position,
distance) pair, ordered by ascending distance (stably), truncated to `k`. -/
def faissTopK {V : Type} (dist : V → V → ℚ) (stored : List V) (q : V) (k : ℕ) :
    List (ℕ × ℚ) :=
  (sortAscBy (fun p => p.2) (stored.enum.map (fun p => (p.1, dist q p.2)))).take k

/-- The result-collection loop of `VectorSearchService.search` skips a pair
when `distance_threshold and distance > distance_threshold` — which, by
Python truthiness, filters only when the threshold is present *and* nonzero. -/
def keepPair (thr : Option ℚ) (d : ℚ) : Bool :=
  match thr with
  | none => true
  | some t => if t = 0 then true else decide (d ≤ t)

/-- Number of vectors (`ntotal`) of a possibly uninitialized index. -/
def indexSize {V : Type} (index : Option (List V)) : ℕ :=
  match index with
  | none => 0
  | some stored => stored.length

/-- Embedding of `VectorSearchService.search`: empty/uninitialized index gives
no results, `k` is clamped to `ntotal`, and the keep-loop applies the
truthiness-guarded threshold filter. -/
def vectorSearch {V : Type} (dist : V → V → ℚ) (index : Option (List V)) (q : V)
    (topK : ℕ) (thr : Option ℚ) : List (ℕ × ℚ) :=
  match index with
  | none => []
  | some stored =>
    if stored.length = 0 then []
    else
      (faissTopK dist stored q (min topK stored.length)).filter
        (fun p => keepPair thr p.2)

/-- C3 counterexample: with a supplied `distance_threshold` of `0`, the pair
`(1, 1)` — whose distance `1` exceeds the threshold `0` — is *not* excluded
(Python's `if distance_threshold` treats `0.0` as absent), contradicting the
claim that every pair whose distance exceeds the supplied threshold is
excluded.  The distance function here reads the stored value directly, so the
stored vectors `[0, 1]` are at distances `0` and `1` from the query. -/
theorem vectorSearch_claim_counterexample :
    vectorSearch (fun _ v : ℚ => v) (some [(0:ℚ), 1]) 0 2 (some 0) =
      [(0, 0), (1, 1)] ∧
    ((1:ℕ), (1:ℚ)) ∈ vectorSearch (fun _ v : ℚ => v) (some [(0:ℚ), 1]) 0 2 (some 0) ∧
    (1:ℚ) > 0 := by
  refine ⟨by decide, by decide, by norm_num⟩

/-- C3 amended: the vector search returns (position, distance) pairs in
ascending distance order, at most `min k ntotal` of them, each pair recording
the distance from the query to the stored vector at that position; every pair
whose distance exceeds a *nonzero* supplied threshold is excluded (a supplied
threshold of exactly `0` is treated as absent, by Python truthiness); an empty
or uninitialized index yields the empty result list, not an error. -/
theorem vectorSearch_amended {V : Type} (dist : V → V → ℚ) (index : Option (List V))
    (q : V) (topK : ℕ) (thr : Option ℚ) :
    SortedAsc (fun p => p.2) (vectorSearch dist index q topK thr) ∧
    (vectorSearch dist index q topK thr).length ≤ min topK (indexSize index) ∧
    (∀ t : ℚ, thr = some t → t ≠ 0 →
      ∀ p ∈ vectorSearch dist index q topK thr, p.2 ≤ t) ∧
    (∀ p ∈ vectorSearch dist index q topK thr,
      ∃ stored : List V, index = some stored ∧
        ∃ hp : p.1 < stored.length, p.2 = dist q (stored.get ⟨p.1, hp⟩)) ∧
    (index = none → vectorSearch dist index q topK thr = []) ∧
    (index = some [] → vectorSearch dist index q topK thr = []) := by
  refine ⟨?_, ?_, ?_, ?_, ?_, ?_⟩
  · cases index with
    | none => simp [vectorSearch, SortedAsc]
    | some stored =>
      by_cases hs : stored.length = 0
      · simp [vectorSearch, hs, SortedAsc]
      · simp only [vectorSearch, hs, if_neg]
        refine List.Pairwise.filter _ ?_
        exact List.Pairwise.sublist (List.take_sublist _ _) (sortAscBy_sorted _ _)
  · cases index with
    | none => simp [vectorSearch]
    | some stored =>
      by_cases hs : stored.length = 0
      · simp [vectorSearch, hs]
      · simp only [vectorSearch, hs, if_neg, indexSize]
        calc ((faissTopK dist stored q (min topK stored.length)).filter
                (fun p => keepPair thr p.2)).length
            ≤ (faissTopK dist stored q (min topK stored.length)).length :=
              List.length_filter_le _ _
          _ ≤ min topK stored.length := by
              simp only [faissTopK]
              exact le_trans (List.length_take_le _ _) (le_refl _)
  · intro t ht hnz p hp
    cases index with
    | none => simp [vectorSearch] at hp
    | some stored =>
      by_cases hs : stored.length = 0
      · simp [vectorSearch, hs] at hp
      · simp only [vectorSearch, hs, if_neg] at hp
        have hk := (List.mem_filter.mp hp).2
        simp only [keepPair, ht] at hk
        rw [if_neg hnz] at hk
        simpa using hk
  · intro p hp
    cases index with
    | none => simp [vectorSearch] at hp
    | some stored =>
      by_cases hs : stored.length = 0
      · simp [vectorSearch, hs] at hp
      · simp only [vectorSearch, hs, if_neg] at hp
        have h1 : p ∈ faissTopK dist stored q (min topK stored.length) :=
          (List.mem_filter.mp hp).1
        have h2 : p ∈ sortAscBy (fun p => p.2)
            (stored.enum.map (fun p => (p.1, dist q p.2))) :=
          List.mem_of_mem_take h1
        have h3 : p ∈ stored.enum.map (fun p => (p.1, dist q p.2)) :=
          (sortAscBy_perm _ _).mem_iff.mp h2
        obtain ⟨⟨i, v⟩, hmem, hpv⟩ := List.mem_map.mp h3
        have hget : stored[i]? = some v := List.mem_enum_iff_getElem?.mp hmem
        have hilt : i < stored.length := by
          by_contra hge
          rw [List.getElem?_eq_none (by omega)] at hget
          exact Option.noConfusion hget
        refine ⟨stored, rfl, ?_⟩
        have hp1 : p.1 = i := by rw [← hpv]
        have hp2 : p.2 = dist q v := by rw [← hpv]
        subst hp1
        refine ⟨hilt, ?_⟩
        rw [hp2]
        congr 1
        have := List.getElem?_eq_getElem hilt
        rw [this] at hget
        simpa [List.get_eq_getElem] using (Option.some.injEq _ _ ▸ hget).symm
  · intro h
    subst h
    rfl
  · intro h
    subst h
    rfl

/-- Witness for C3 (amended) on a three-vector index over `ℚ` with squared
distance: with `k = 2` and threshold `1`, both surviving pairs have distance
at most `1`, and the computed result is exactly `[(0, 0), (1, 1)]`. -/
theorem vectorSearch_amended_witness :
    (∀ p ∈ vectorSearch (fun _ v : ℚ => v) (some [(0:ℚ), 1, 10]) 0 2 (some 1),
      p.2 ≤ 1) ∧
    vectorSearch (fun _ v : ℚ => v) (some [(0:ℚ), 1, 10]) 0 2 (some 1) =
      [(0, 0), (1, 1)] := by
  refine ⟨?_, by decide⟩
  intro p hp
  exact (vectorSearch_amended (fun _ v : ℚ => v) (some [(0:ℚ), 1, 10]) 0 2
    (some 1)).2.2.1 1 rfl (by norm_num) p hp

/-! ## WebSearchAgent._apply_rrf (claim C4) — `src/backend/src/orchestration/web_search.py`

The input is the `all_results` mapping built by the fan-out loop: each
distinct URL maps to the list of `(rank, result)` pairs collected for it
across the query variants (Python dict = insertion-ordered association
list). -/

/-- One fused entry produced by `_apply_rrf`: the first collected raw result
for the URL, with its `rrf_score` and `query_count` fields set. -/
structure FusedResult (ρ : Type) where
  result : ρ
  rrfScore : ℚ
  queryCount : ℕ

/-- `sum(1.0 / (self.rrf_k + rank) for rank, _ in rankings)`. -/
def rrfSum {ρ : Type} (kConst : ℚ) (rankings : List (ℕ × ρ)) : ℚ :=
  (rankings.map (fun p => 1 / (kConst + (p.1 : ℚ)))).sum

/-- The per-URL final score: the RRF sum plus the multi-query boost
`len(rankings) * self.multi_query_boost`. -/
def rrfFinalScore {ρ : Type} (kConst boost : ℚ) (rankings : List (ℕ × ρ)) : ℚ :=
  rrfSum kConst rankings + (rankings.length : ℚ) * boost

/-- Embedding of `_apply_rrf`: each URL contributes its first collected result
annotated with the final score and `query_count = len(rankings)`; the fused
list is sorted by descending `rrf_score` (Python's stable
`list.sort(reverse=True)`).  A URL with an empty ranking list would raise
`IndexError` at `rankings[0]` in the source and cannot occur (the fan-out
loop appends a pair whenever it creates a URL key); it is skipped here. -/
def applyRRF {ρ : Type} (kConst boost : ℚ)
    (queryResults : List (String × List (ℕ × ρ))) : List (FusedResult ρ) :=
  sortDescBy (fun f => f.rrfScore)
    (queryResults.filterMap (fun e =>
      match e.2 with
      | [] => none
      | r0 :: _ => some ⟨r0.2, rrfFinalScore kConst boost e.2, e.2.length⟩))

/-- C4: reciprocal-rank fusion assigns each URL the score
`Σ 1/(k_const + rank)` over its appearances plus a boost proportional to the
number of queries that surfaced it, sorts descending by that score, and — at
the source's defaults `rrf_k = 60`, `multi_query_boost = 0.1` — a URL at
rank 1 in 3 query variants scores strictly higher than a URL at rank 1 in
exactly one variant. -/
theorem applyRRF_claim {ρ : Type} (kConst boost : ℚ)
    (queryResults : List (String × List (ℕ × ρ))) :
    (∀ url : String, ∀ rankings : List (ℕ × ρ), ∀ r0 : ℕ × ρ, ∀ rest : List (ℕ × ρ),
      (url, rankings) ∈ queryResults → rankings = r0 :: rest →
      ∃ f ∈ applyRRF kConst boost queryResults,
        f.result = r0.2 ∧
        f.rrfScore =
          (rankings.map (fun p => 1 / (kConst + (p.1 : ℚ)))).sum +
            (rankings.length : ℚ) * boost ∧
        f.queryCount = rankings.length) ∧
    SortedDesc (fun f => f.rrfScore) (applyRRF kConst boost queryResults) ∧
    (∀ a b c d : ρ,
      rrfFinalScore (60 : ℚ) (1/10) [(1, a), (1, b), (1, c)] >
        rrfFinalScore (60 : ℚ) (1/10) [(1, d)]) := by
  refine ⟨?_, sortDescBy_sorted _ _, ?_⟩
  · intro url rankings r0 rest hmem hcons
    subst hcons
    have hv : (⟨r0.2, rrfFinalScore kConst boost (r0 :: rest),
        (r0 :: rest).length⟩ : FusedResult ρ) ∈ applyRRF kConst boost queryResults := by
      unfold applyRRF
      refine (sortDescBy_perm (fun f : FusedResult ρ => f.rrfScore) _).mem_iff.mpr ?_
      exact List.mem_filterMap.mpr ⟨(url, r0 :: rest), hmem, rfl⟩
    exact ⟨_, hv, rfl, rfl, rfl⟩
  · intro a b c d
    simp only [rrfFinalScore, rrfSum, List.map_cons, List.map_nil, List.sum_cons,
      List.sum_nil, List.length_cons, List.length_nil]
    norm_num

/-- Witness for C4: the concrete `all_results` mapping in which URL `u1` was
collected at rank 1 from three query variants and `u2` at rank 1 from one;
the fused entry for `u1` carries score `3/61 + 3/10`, query count 3, and
out-scores `u2`. -/
theorem applyRRF_claim_witness :
    (∃ f ∈ applyRRF (60 : ℚ) (1/10)
        [("u1", [(1, 0), (1, 0), (1, 0)]), ("u2", [(1, (0:ℕ))])],
      f.result = 0 ∧
      f.rrfScore =
        (([(1, 0), (1, 0), (1, (0:ℕ))].map (fun p => 1 / ((60:ℚ) + (p.1 : ℚ)))).sum +
          (([(1, 0), (1, 0), (1, (0:ℕ))].length : ℚ)) * (1/10)) ∧
      f.queryCount = 3) ∧
    rrfFinalScore (60 : ℚ) (1/10) [(1, (0:ℕ)), (1, 0), (1, 0)] >
      rrfFinalScore (60 : ℚ) (1/10) [(1, (0:ℕ))] := by
  have h := applyRRF_claim (60 : ℚ) (1/10)
    [("u1", [(1, 0), (1, 0), (1, 0)]), ("u2", [(1, (0:ℕ))])]
  refine ⟨?_, h.2.2 0 0 0 0⟩
  exact h.1 "u1" [(1, 0), (1, 0), (1, 0)] (1, 0) [(1, 0), (1, 0)]
    (List.mem_cons_self _ _) rfl

/-! ## CrossEncoderReranker.rerank (claim C5) — `src/backend/src/services/faiss/core/reranking.py`

The cross-encoder model is an opaque scoring function
`model : query → text → ℚ` (the source's `self.model.predict(pairs)`). -/

/-- A search-result dict as the reranker sees it: its text plus the
`rerank_score` field the reranker writes. -/
structure ScoredDoc where
  text : String
  rerankScore : ℚ
deriving DecidableEq, Repr

/-- `np.min` of a score list (the `if not results` guard keeps it nonempty). -/
def listMin : List ℚ → ℚ
  | [] => 0
  | x :: xs => xs.foldl min x

/-- `np.max` of a score list. -/
def listMax : List ℚ → ℚ
  | [] => 0
  | x :: xs => xs.foldl max x

/-- Min-max normalization of `CrossEncoderReranker.rerank`:
`(s - min) / (max - min)` when the scores are not all identical, else the
constant `0.5`. -/
def minMaxNorm (raw : List ℚ) (s : ℚ) : ℚ :=
  if listMax raw ≠ listMin raw then (s - listMin raw) / (listMax raw - listMin raw)
  else 1/2

/-- The annotation step: every candidate gets `rerank_score` set to its
normalized raw model score. -/
def ceAnnotated (model : String → String → ℚ) (query : String)
    (results : List ScoredDoc) : List ScoredDoc :=
  results.map (fun d =>
    ⟨d.text, minMaxNorm (results.map (fun e => model query e.text)) (model query d.text)⟩)

/-- Embedding of `CrossEncoderReranker.rerank`: empty guard, annotate,
filter by `rerank_score >= score_threshold` when a threshold is supplied
(`is not None` — unlike the vector search this accepts `0`), stable sort by
descending `rerank_score`, truncate to `top_k`. -/
def crossEncoderRerank (model : String → String → ℚ) (query : String)
    (results : List ScoredDoc) (topK : ℕ) (scoreThreshold : Option ℚ) :
    List ScoredDoc :=
  if results = [] then []
  else
    let annotated := ceAnnotated model query results
    let filtered := match scoreThreshold with
      | none => annotated
      | some t => annotated.filter (fun d => t ≤ d.rerankScore)
    (sortDescBy (fun d => d.rerankScore) filtered).take topK

theorem foldl_min_le_init (l : List ℚ) : ∀ a : ℚ, l.foldl min a ≤ a := by
  induction l with
  | nil => intro a; simp
  | cons x xs ih =>
    intro a
    calc (x :: xs).foldl min a = xs.foldl min (min a x) := rfl
      _ ≤ min a x := ih _
      _ ≤ a := min_le_left _ _

theorem foldl_min_le_mem (l : List ℚ) : ∀ a : ℚ, ∀ x ∈ l, l.foldl min a ≤ x := by
  induction l with
  | nil => intro a x hx; simp at hx
  | cons y ys ih =>
    intro a x hx
    rcases List.mem_cons.mp hx with rfl | hx2
    · calc (x :: ys).foldl min a = ys.foldl min (min a x) := rfl
        _ ≤ min a x := foldl_min_le_init ys _
        _ ≤ x := min_le_right _ _
    · exact ih (min a y) x hx2

theorem init_le_foldl_max (l : List ℚ) : ∀ a : ℚ, a ≤ l.foldl max a := by
  induction l with
  | nil => intro a; simp
  | cons x xs ih =>
    intro a
    calc a ≤ max a x := le_max_left _ _
      _ ≤ xs.foldl max (max a x) := ih _
      _ = (x :: xs).foldl max a := rfl

theorem mem_le_foldl_max (l : List ℚ) : ∀ a : ℚ, ∀ x ∈ l, x ≤ l.foldl max a := by
  induction l with
  | nil => intro a x hx; simp at hx
  | cons y ys ih =>
    intro a x hx
    rcases List.mem_cons.mp hx with rfl | hx2
    · calc x ≤ max a x := le_max_right _ _
        _ ≤ ys.foldl max (max a x) := init_le_foldl_max ys _
        _ = (x :: ys).foldl max a := rfl
    · exact ih (max a y) x hx2

theorem listMin_le (l : List ℚ) (x : ℚ) (hx : x ∈ l) : listMin l ≤ x := by
  cases l with
  | nil => simp at hx
  | cons y ys =>
    rcases List.mem_cons.mp hx with rfl | hx2
    · exact foldl_min_le_init ys x
    · exact foldl_min_le_mem ys y x hx2

theorem le_listMax (l : List ℚ) (x : ℚ) (hx : x ∈ l) : x ≤ listMax l := by
  cases l with
  | nil => simp at hx
  | cons y ys =>
    rcases List.mem_cons.mp hx with rfl | hx2
    · exact init_le_foldl_max ys x
    · exact mem_le_foldl_max ys y x hx2

theorem foldl_max_const (cs : List ℚ) (c : ℚ) (h : ∀ x ∈ cs, x = c) :
    cs.foldl max c = c := by
  induction cs with
  | nil => rfl
  | cons x xs ih =>
    have hx : x = c := h x (List.mem_cons_self _ _)
    have h2 : ∀ y ∈ xs, y = c := fun y hy => h y (List.mem_cons_of_mem _ hy)
    calc (x :: xs).foldl max c = xs.foldl max (max c x) := rfl
      _ = xs.foldl max c := by rw [hx, max_self]
      _ = c := ih h2

theorem foldl_min_const (cs : List ℚ) (c : ℚ) (h : ∀ x ∈ cs, x = c) :
    cs.foldl min c = c := by
  induction cs with
  | nil => rfl
  | cons x xs ih =>
    have hx : x = c := h x (List.mem_cons_self _ _)
    have h2 : ∀ y ∈ xs, y = c := fun y hy => h y (List.mem_cons_of_mem _ hy)
    calc (x :: xs).foldl min c = xs.foldl min (min c x) := rfl
      _ = xs.foldl min c := by rw [hx, min_self]
      _ = c := ih h2

theorem listMax_eq_listMin_of_const (l : List ℚ) (c : ℚ) (hc : ∀ x ∈ l, x = c)
    (hl : l ≠ []) : listMax l = c ∧ listMin l = c := by
  cases l with
  | nil => exact absurd rfl hl
  | cons y ys =>
    have hy : y = c := hc y (List.mem_cons_self _ _)
    have h2 : ∀ x ∈ ys, x = c := fun x hx => hc x (List.mem_cons_of_mem _ hx)
    subst hy
    exact ⟨foldl_max_const ys y h2, foldl_min_const ys y h2⟩

theorem minMaxNorm_mem_unit (raw : List ℚ) (s : ℚ) (hs : s ∈ raw) :
    0 ≤ minMaxNorm raw s ∧ minMaxNorm raw s ≤ 1 := by
  unfold minMaxNorm
  split
  · rename_i hne
    have hmin : listMin raw ≤ s := listMin_le raw s hs
    have hmax : s ≤ listMax raw := le_listMax raw s hs
    have hpos : 0 < listMax raw - listMin raw := by
      rcases lt_or_le (listMin raw) (listMax raw) with h | h
      · linarith
      · exact absurd (le_antisymm h (le_trans hmin hmax)) hne
    constructor
    · apply div_nonneg <;> linarith
    · rw [div_le_one hpos]
      linarith
  · norm_num

/-- C5: for every non-empty candidate list, the cross-encoder reranker
annotates each candidate with a `rerank_score` in `[0,1]` obtained by min-max
normalizing the raw model scores — the constant `0.5` for every candidate
when all raw scores are identical — and returns the annotated candidates in
descending `rerank_score`, truncated to `top_k` and then filtered by
`score_threshold` when one is given (the source filters before sorting, but
filtering and sorting use the same key, so the results coincide). -/
theorem crossEncoderRerank_claim (model : String → String → ℚ) (query : String)
    (results : List ScoredDoc) (topK : ℕ) (scoreThreshold : Option ℚ)
    (hne : results ≠ []) :
    (∀ d ∈ ceAnnotated model query results,
      0 ≤ d.rerankScore ∧ d.rerankScore ≤ 1) ∧
    ((∀ a ∈ results, ∀ b ∈ results, model query a.text = model query b.text) →
      ∀ d ∈ ceAnnotated model query results, d.rerankScore = 1/2) ∧
    crossEncoderRerank model query results topK scoreThreshold =
      (match scoreThreshold with
        | none =>
            (sortDescBy (fun d => d.rerankScore)
              (ceAnnotated model query results)).take topK
        | some t =>
            ((sortDescBy (fun d => d.rerankScore)
              (ceAnnotated model query results)).take topK).filter
                (fun d => t ≤ d.rerankScore)) ∧
    SortedDesc (fun d => d.rerankScore)
      (crossEncoderRerank model query results topK scoreThreshold) ∧
    (crossEncoderRerank model query results topK scoreThreshold).length ≤ topK ∧
    (∀ d ∈ crossEncoderRerank model query results topK scoreThreshold,
      d ∈ ceAnnotated model query results) := by
  have hset : ∀ d ∈ ceAnnotated model query results,
      ∃ s ∈ results.map (fun e => model query e.text),
        d.rerankScore = minMaxNorm (results.map (fun e => model query e.text)) s := by
    intro d hd
    obtain ⟨e, he, hde⟩ := List.mem_map.mp hd
    refine ⟨model query e.text, List.mem_map.mpr ⟨e, he, rfl⟩, ?_⟩
    rw [← hde]
  have hcode : crossEncoderRerank model query results topK scoreThreshold =
      (match scoreThreshold with
        | none =>
            (sortDescBy (fun d => d.rerankScore)
              (ceAnnotated model query results)).take topK
        | some t =>
            ((sortDescBy (fun d => d.rerankScore)
              (ceAnnotated model query results)).take topK).filter
                (fun d => t ≤ d.rerankScore)) := by
    cases scoreThreshold with
    | none => simp only [crossEncoderRerank, if_neg hne]
    | some t =>
      simp only [crossEncoderRerank, if_neg hne]
      have hp : ∀ a b : ScoredDoc,
          b.rerankScore ≤ a.rerankScore →
          decide (t ≤ a.rerankScore) = false → decide (t ≤ b.rerankScore) = false := by
        intro a b hab hpa
        simp only [decide_eq_false_iff_not, not_le] at hpa ⊢
        exact lt_of_le_of_lt hab hpa
      have hcomm := filter_take_of_sortedDesc (fun d => d.rerankScore)
        (fun d => decide (t ≤ d.rerankScore))
        (sortDescBy (fun d => d.rerankScore) (ceAnnotated model query results))
        (sortDescBy_sorted _ _) hp topK
      rw [hcomm, filter_sortDescBy]
  refine ⟨?_, ?_, hcode, ?_, ?_, ?_⟩
  · intro d hd
    obtain ⟨s, hs, hds⟩ := hset d hd
    rw [hds]
    exact minMaxNorm_mem_unit _ s hs
  · intro hall d hd
    obtain ⟨s, hs, hds⟩ := hset d hd
    obtain ⟨e0, he0, hse⟩ := List.mem_map.mp hs
    have hconst : ∀ x ∈ results.map (fun e => model query e.text), x = s := by
      intro x hx
      obtain ⟨e, he, hex⟩ := List.mem_map.mp hx
      rw [← hex, ← hse]
      exact hall e he e0 he0
    have hmapne : results.map (fun e => model query e.text) ≠ [] := by
      simpa using hne
    obtain ⟨hmx, hmn⟩ :=
      listMax_eq_listMin_of_const (results.map (fun e => model query e.text)) s hconst hmapne
    rw [hds]
    unfold minMaxNorm
    rw [if_neg ?_]
    rw [hmx, hmn]
    exact not_not_intro rfl
  · rw [hcode]
    cases scoreThreshold with
    | none =>
      exact List.Pairwise.sublist (List.take_sublist _ _) (sortDescBy_sorted _ _)
    | some t =>
      exact List.Pairwise.filter _
        (List.Pairwise.sublist (List.take_sublist _ _) (sortDescBy_sorted _ _))
  · rw [hcode]
    cases scoreThreshold with
    | none => exact List.length_take_le _ _
    | some t =>
      exact le_trans (List.length_filter_le _ _) (List.length_take_le _ _)
  · intro d hd
    rw [hcode] at hd
    cases scoreThreshold with
    | none =>
      exact (sortDescBy_perm _ _).mem_iff.mp (List.mem_of_mem_take hd)
    | some t =>
      exact (sortDescBy_perm _ _).mem_iff.mp
        (List.mem_of_mem_take (List.mem_filter.mp hd).1)

/-- Witness for C5 with a constant scoring model on two candidates: the list
is nonempty, every annotated score is the identical-scores fallback `0.5`,
and at most `top_k = 1` results come back. -/
theorem crossEncoderRerank_claim_witness :
    (∀ d ∈ ceAnnotated (fun _ _ => (5:ℚ)) "q" [⟨"a", 0⟩, ⟨"b", 0⟩],
      d.rerankScore = 1/2) ∧
    (crossEncoderRerank (fun _ _ => (5:ℚ)) "q" [⟨"a", 0⟩, ⟨"b", 0⟩] 1 none).length ≤ 1 := by
  have h := crossEncoderRerank_claim (fun _ _ => (5:ℚ)) "q" [⟨"a", 0⟩, ⟨"b", 0⟩] 1 none
    (by simp)
  exact ⟨h.2.1 (fun a _ b _ => rfl), h.2.2.2.2.1⟩

/-! ## FaissRAGEngine CRUD (claims C1, C9, C10) — `src/backend/src/services/faiss/engine.py`

The engine state is the `documents` list (chunk records with text and
metadata) and the FAISS index, modelled as the list of stored vectors —
`none` when `self.vector_search.index is None`.  The embedder is an opaque
`embed : String → V`; the chunker is an opaque `chunkFn : String → List
String` (the source uses `self.chunker.chunk(content)` under the semantic
strategy and `[content]` otherwise).

Failure injection: the claim's failure modes are an exception during
embedding or index append (`SentenceTransformer.encode` /
`faiss.Index.add`).  A `fail := true` on an operation makes that operation's
encode raise before anything is appended (FAISS appends the encoded batch
atomically), after which the source's `except` handler runs; the resulting
state — rollback included — is returned together with a "raised" flag.

`remove`'s empty-rebuild branch calls `faiss.IndexFlatL2(self.dimension)`;
`self.dimension` is set whenever an index exists, and that branch is only
reachable when chunks were just removed (so an index existed), hence the
dimension bookkeeping is elided. -/

/-- A stored chunk record: `{'text': chunk, 'metadata': {'doc_id': …,
'chunk_id': i}}`. -/
structure EChunk where
  text : String
  docId : Option String
  chunkId : ℕ
deriving DecidableEq, Repr

/-- Engine state: chunk records plus the vector index (`none` =
uninitialized). -/
structure EngineState (V : Type) where
  documents : List EChunk
  index : Option (List V)
deriving DecidableEq, Repr

/-- The vectors the index holds (`ntotal = (indexVectors s).length`). -/
def indexVectors {V : Type} (s : EngineState V) : List V :=
  s.index.getD []

/-- Embedding of `FaissRAGEngine.add_document_to_index`.  On entry a fresh
empty index is created when none exists (no clone is taken then — the
rollback's `if original_index:` keeps the fresh index in that case); on a
raise during encode, the handler restores `documents` and, only when a clone
was taken, the index. -/
def addDocumentToIndex {V : Type} (embed : String → V) (chunkFn : String → List String)
    (fail : Bool) (content : String) (docId : Option String) (s : EngineState V) :
    EngineState V × Bool :=
  let initIndex : List V := (indexVectors s)
  let originalIndex : Option (List V) := s.index
  if fail then
    ({ documents := s.documents
       index := match originalIndex with
         | some v => some v
         | none => some initIndex }, true)
  else
    let chunks := chunkFn content
    let withMeta := chunks.enum.map (fun p => ⟨p.2, docId, p.1⟩ : ℕ × String → EChunk)
    ({ documents := s.documents ++ withMeta
       index := some (initIndex ++ chunks.map embed) }, false)

/-- Embedding of `FaissRAGEngine.remove_document_from_index`: drop the chunks
of `doc_id`; unknown id is an early return (a warning, not an error); else
rebuild the index from the remaining texts, or reset it to a fresh empty
index when none remain.  A raise during the rebuild's encode leaves the old
index in place while the handler restores `documents`. -/
def removeDocumentFromIndex {V : Type} (embed : String → V) (fail : Bool)
    (docId : String) (s : EngineState V) : EngineState V × Bool :=
  let remaining := s.documents.filter (fun d => d.docId ≠ some docId)
  if remaining.length = s.documents.length then (s, false)
  else if remaining.isEmpty then
    ({ documents := remaining, index := some [] }, false)
  else if fail then (s, true)
  else ({ documents := remaining
          index := some (remaining.map (fun d => embed d.text)) }, false)

/-- Embedding of `FaissRAGEngine.update_document_in_index` =
remove-then-add in one critical section: the pre-state index is cloned only
when it exists and is nonempty; `_remove_document_no_lock` then
`_add_document_no_lock` run, and any raise (rebuild encode, `add_vectors` on
a `None` index, add encode) triggers the handler, which restores `documents`
and — only when the clone was taken — the index. -/
def updateDocumentInIndex {V : Type} (embed : String → V) (chunkFn : String → List String)
    (failRemove failAdd : Bool) (docId : String) (content : String)
    (s : EngineState V) : EngineState V × Bool :=
  let originalIndex : Option (List V) :=
    match s.index with
    | some v => if v.isEmpty then none else some v
    | none => none
  let rollback : EngineState V → EngineState V := fun cur =>
    { documents := s.documents
      index := match originalIndex with
        | some w => some w
        | none => cur.index }
  -- _remove_document_no_lock: `self.documents` is reassigned before the
  -- rebuild, so a rebuild raise leaves the filtered documents in place
  -- (the handler then restores them).
  let remaining := s.documents.filter (fun d => d.docId ≠ some docId)
  let removePhase : Except (EngineState V) (EngineState V) :=
    if remaining.length < s.documents.length then
      if remaining.isEmpty then
        Except.ok { documents := remaining, index := some [] }
      else if failRemove then
        Except.error { documents := remaining, index := s.index }
      else
        Except.ok { documents := remaining
                    index := some (remaining.map (fun d => embed d.text)) }
    else Except.ok s
  match removePhase with
  | Except.error cur => (rollback cur, true)
  | Except.ok s1 =>
    match s1.index with
    | none => (rollback s1, true)   -- add_vectors: "Index not initialized"
    | some v =>
      if failAdd then (rollback { documents := s1.documents, index := some v }, true)
      else
        let chunks := chunkFn content
        let withMeta := chunks.enum.map (fun p => ⟨p.2, some docId, p.1⟩ : ℕ × String → EChunk)
        ({ documents := s1.documents ++ withMeta
           index := some (v ++ chunks.map embed) }, false)

/-- One CRUD operation with its injected failure flags. -/
inductive EngineOp : Type
  | add (fail : Bool) (content : String) (docId : Option String)
  | update (failRemove failAdd : Bool) (docId : String) (content : String)
  | remove (fail : Bool) (docId : String)
deriving DecidableEq, Repr

/-- Run one operation, keeping the state the engine object is left in
(rollback applied when the operation raised). -/
def engineStep {V : Type} (embed : String → V) (chunkFn : String → List String)
    (s : EngineState V) (op : EngineOp) : EngineState V :=
  match op with
  | EngineOp.add fail content docId =>
      (addDocumentToIndex embed chunkFn fail content docId s).1
  | EngineOp.update failRemove failAdd docId content =>
      (updateDocumentInIndex embed chunkFn failRemove failAdd docId content s).1
  | EngineOp.remove fail docId =>
      (removeDocumentFromIndex embed fail docId s).1

/-- A freshly constructed engine: no documents, no index. -/
def engineInit {V : Type} : EngineState V :=
  { documents := [], index := none }

/-- The central invariant: the index holds exactly the embeddings of the
stored chunk texts, in order. -/
def EngineInv {V : Type} (embed : String → V) (s : EngineState V) : Prop :=
  indexVectors s = s.documents.map (fun d => embed d.text)

theorem map_text_withMeta (chunks : List String) (docId : Option String)
    (f : String → α) :
    (chunks.enum.map (fun p => (⟨p.2, docId, p.1⟩ : EChunk))).map (fun d => f d.text)
      = chunks.map f := by
  rw [List.map_map]
  have : ((fun d : EChunk => f d.text) ∘ fun p : ℕ × String => (⟨p.2, docId, p.1⟩ : EChunk))
      = (fun p : ℕ × String => f p.2) := rfl
  rw [this]
  have h2 : (fun p : ℕ × String => f p.2) = f ∘ Prod.snd := rfl
  rw [h2, ← List.map_map, List.enum_map_snd]

theorem engineInv_empty_docs {V : Type} (embed : String → V) (s : EngineState V)
    (h : EngineInv embed s) (hidx : indexVectors s = []) : s.documents = [] := by
  rw [EngineInv, hidx] at h
  exact List.map_eq_nil_iff.mp h.symm

theorem engineInv_add {V : Type} (embed : String → V) (chunkFn : String → List String)
    (fail : Bool) (content : String) (docId : Option String) (s : EngineState V)
    (h : EngineInv embed s) :
    EngineInv embed (addDocumentToIndex embed chunkFn fail content docId s).1 := by
  cases fail with
  | true =>
    cases hidx : s.index with
    | none =>
      have hdocs : s.documents = [] :=
        engineInv_empty_docs embed s h (by simp [indexVectors, hidx])
      simp [addDocumentToIndex, EngineInv, indexVectors, hidx, hdocs]
    | some v =>
      simpa [addDocumentToIndex, EngineInv, indexVectors, hidx] using
        (by simpa [EngineInv, indexVectors, hidx] using h)
  | false =>
    rw [EngineInv, indexVectors] at h
    simp only [addDocumentToIndex, Bool.false_eq_true, if_false, EngineInv, indexVectors,
      Option.getD_some, List.map_append, map_text_withMeta, h]

theorem engineInv_remove {V : Type} (embed : String → V) (fail : Bool)
    (docId : String) (s : EngineState V) (h : EngineInv embed s) :
    EngineInv embed (removeDocumentFromIndex embed fail docId s).1 := by
  simp only [removeDocumentFromIndex]
  by_cases hrem :
      (s.documents.filter (fun d => d.docId ≠ some docId)).length = s.documents.length
  · rw [if_pos hrem]
    exact h
  · rw [if_neg hrem]
    by_cases hempty : (s.documents.filter (fun d => d.docId ≠ some docId)).isEmpty
    · rw [if_pos hempty]
      have hrnil : s.documents.filter (fun d => d.docId ≠ some docId) = [] :=
        List.isEmpty_iff.mp hempty
      simp only [EngineInv, indexVectors, Option.getD_some, hrnil, List.map_nil]
    · rw [if_neg hempty]
      cases fail with
      | true =>
        rw [if_pos rfl]
        exact h
      | false =>
        rw [if_neg (by simp)]
        simp [EngineInv, indexVectors]

theorem engineInv_update {V : Type} (embed : String → V) (chunkFn : String → List String)
    (failRemove failAdd : Bool) (docId : String) (content : String)
    (s : EngineState V) (h : EngineInv embed s) :
    EngineInv embed
      (updateDocumentInIndex embed chunkFn failRemove failAdd docId content s).1 := by
  simp only [updateDocumentInIndex]
  by_cases hrem :
      (s.documents.filter (fun d => d.docId ≠ some docId)).length < s.documents.length
  · -- chunks were removed, so the pre-state documents were nonempty and, by
    -- the invariant, the index existed and was nonempty: the clone was taken
    have hdocs : s.documents ≠ [] := by
      intro hc
      rw [hc] at hrem
      simp at hrem
    have hvne : indexVectors s ≠ [] := by
      intro hc
      exact hdocs (engineInv_empty_docs embed s h hc)
    cases hidx : s.index with
    | none => exact absurd (by simp [indexVectors, hidx]) hvne
    | some v =>
      have hvempty : ¬ v.isEmpty = true := by
        simpa [indexVectors, hidx, List.isEmpty_iff] using hvne
      have hv : v = s.documents.map (fun d => embed d.text) := by
        simpa [EngineInv, indexVectors, hidx] using h
      by_cases hempty : (s.documents.filter (fun d => d.docId ≠ some docId)).isEmpty
      · have hrnil : s.documents.filter (fun d => d.docId ≠ some docId) = [] :=
          List.isEmpty_iff.mp hempty
        cases failAdd with
        | false =>
          simp only [hrem, if_true, hempty, hvempty, Bool.false_eq_true, if_false,
            EngineInv, indexVectors, Option.getD_some, List.nil_append,
            List.map_append, List.map_nil, map_text_withMeta]
          rw [hrnil]
          simp
        | true =>
          simp only [hrem, if_true, hempty, hvempty, Bool.false_eq_true, if_false,
            EngineInv, indexVectors, Option.getD_some]
          exact hv
      · cases failRemove with
        | true =>
          simp only [hrem, if_true, hempty, Bool.false_eq_true, if_false, hvempty,
            EngineInv, indexVectors, Option.getD_some]
          exact hv
        | false =>
          cases failAdd with
          | false =>
            simp only [hrem, if_true, hempty, Bool.false_eq_true, if_false, hvempty,
              EngineInv, indexVectors, Option.getD_some, List.map_append,
              map_text_withMeta]
          | true =>
            simp only [hrem, if_true, hempty, Bool.false_eq_true, if_false, hvempty,
              EngineInv, indexVectors, Option.getD_some]
            exact hv
  · -- unknown doc id: the remove phase is a no-op
    cases hidx : s.index with
    | none =>
      simp only [hrem, if_false, hidx, EngineInv, indexVectors, Option.getD_none]
      rw [EngineInv, indexVectors, hidx] at h
      simpa using h
    | some v =>
      have hv : v = s.documents.map (fun d => embed d.text) := by
        simpa [EngineInv, indexVectors, hidx] using h
      cases failAdd with
      | false =>
        simp only [hrem, if_false, hidx, Bool.false_eq_true, EngineInv, indexVectors,
          Option.getD_some, List.map_append, map_text_withMeta, hv]
      | true =>
        by_cases hvempty : v.isEmpty
        · simp only [hrem, if_false, hidx, hvempty, if_true, EngineInv, indexVectors,
            Option.getD_some]
          exact hv
        · simp only [hrem, if_false, hidx, hvempty, Bool.false_eq_true, EngineInv,
            indexVectors, Option.getD_some]
          exact hv

theorem engineInv_step {V : Type} (embed : String → V) (chunkFn : String → List String)
    (s : EngineState V) (op : EngineOp) (h : EngineInv embed s) :
    EngineInv embed (engineStep embed chunkFn s op) := by
  cases op with
  | add fail content docId =>
    exact engineInv_add embed chunkFn fail content docId s h
  | update failRemove failAdd docId content =>
    exact engineInv_update embed chunkFn failRemove failAdd docId content s h
  | remove fail docId =>
    exact engineInv_remove embed fail docId s h

theorem engineInv_run {V : Type} (embed : String → V) (chunkFn : String → List String) :
    ∀ (ops : List EngineOp) (s : EngineState V), EngineInv embed s →
      EngineInv embed (ops.foldl (engineStep embed chunkFn) s) := by
  intro ops
  induction ops with
  | nil => intro s h; exact h
  | cons op rest ih =>
    intro s h
    exact ih _ (engineInv_step embed chunkFn s op h)

/-- C1: after every operation of any sequence of add/update/remove operations
run from a fresh engine — including operations that fail during embedding or
index append and are rolled back — the number of stored chunk records equals
the number of vectors in the index, and the chunk record at position `i` is
the one whose embedding is the vector at index position `i`.  (The
quantification over `ops` covers every prefix, so the invariant holds after
each operation of a longer sequence.) -/
theorem engineIndexInv_claim {V : Type} (embed : String → V)
    (chunkFn : String → List String) (ops : List EngineOp) :
    (indexVectors (ops.foldl (engineStep embed chunkFn) engineInit)).length =
      (ops.foldl (engineStep embed chunkFn) engineInit).documents.length ∧
    ∀ i : ℕ,
      ∀ h1 : i < (indexVectors (ops.foldl (engineStep embed chunkFn) engineInit)).length,
      ∀ h2 : i < (ops.foldl (engineStep embed chunkFn) engineInit).documents.length,
      (indexVectors (ops.foldl (engineStep embed chunkFn) engineInit)).get ⟨i, h1⟩ =
        embed (((ops.foldl (engineStep embed chunkFn) engineInit).documents.get
          ⟨i, h2⟩).text) := by
  have hinv : EngineInv embed (ops.foldl (engineStep embed chunkFn) engineInit) :=
    engineInv_run embed chunkFn ops engineInit rfl
  rw [EngineInv] at hinv
  constructor
  · rw [hinv, List.length_map]
  · intro i h1 h2
    simp only [List.get_eq_getElem]
    have := List.getElem_of_eq hinv (by exact h1)
    rw [this, List.getElem_map]

/-- Witness for C1: identity embedder, single-chunk chunker, and the
three-operation sequence add / failing add (rolled back) / remove-unknown;
afterwards the index holds exactly one vector, the embedding of the single
stored chunk. -/
theorem engineIndexInv_claim_witness :
    (indexVectors (([EngineOp.add false "hello" (some "d1"),
        EngineOp.add true "boom" (some "d2"),
        EngineOp.remove false "nope"] : List EngineOp).foldl
          (engineStep (fun t => t) (fun c => [c])) engineInit)).length =
      (([EngineOp.add false "hello" (some "d1"),
        EngineOp.add true "boom" (some "d2"),
        EngineOp.remove false "nope"] : List EngineOp).foldl
          (engineStep (fun t => t) (fun c => [c])) engineInit).documents.length ∧
    0 < (indexVectors (([EngineOp.add false "hello" (some "d1"),
        EngineOp.add true "boom" (some "d2"),
        EngineOp.remove false "nope"] : List EngineOp).foldl
          (engineStep (fun t => t) (fun c => [c])) engineInit)).length ∧
    (indexVectors (([EngineOp.add false "hello" (some "d1"),
        EngineOp.add true "boom" (some "d2"),
        EngineOp.remove false "nope"] : List EngineOp).foldl
          (engineStep (fun t => t) (fun c => [c])) engineInit)).get ⟨0, by decide⟩ =
      ((([EngineOp.add false "hello" (some "d1"),
        EngineOp.add true "boom" (some "d2"),
        EngineOp.remove false "nope"] : List EngineOp).foldl
          (engineStep (fun t => t) (fun c => [c])) engineInit).documents.get
        ⟨0, by decide⟩).text := by
  have h := engineIndexInv_claim (fun t : String => t) (fun c => [c])
    [EngineOp.add false "hello" (some "d1"),
     EngineOp.add true "boom" (some "d2"),
     EngineOp.remove false "nope"]
  exact ⟨h.1, by decide, h.2 0 (by decide) (by decide)⟩

/-- Embedding of the candidate-mapping loop of `FaissRAGEngine.search`
(reranking disabled): each vector-search hit `(idx, score)` becomes the
stored record at `idx` with the score attached, and an `idx` at or beyond
`len(self.documents)` is silently skipped (`if idx < len(self.documents)`). -/
def engineSearchCandidates {V : Type} (dist : V → V → ℚ) (s : EngineState V)
    (qv : V) (topK : ℕ) (thr : Option ℚ) : List (EChunk × ℚ) :=
  (vectorSearch dist s.index qv topK thr).filterMap
    (fun p => (s.documents[p.1]?).map (fun d => (d, p.2)))

/-- C10: the engine's search never fails on an index holding more vectors
than there are chunk records — a returned index position at or beyond the
documents list is skipped, every candidate the engine keeps is the stored
chunk record at its hit position, and no in-range hit is dropped. -/
theorem engineSearch_claim {V : Type} (dist : V → V → ℚ) (s : EngineState V)
    (qv : V) (topK : ℕ) (thr : Option ℚ) :
    (∀ r ∈ engineSearchCandidates dist s qv topK thr,
      ∃ i : ℕ, ∃ h : i < s.documents.length,
        r.1 = s.documents.get ⟨i, h⟩ ∧
        (i, r.2) ∈ vectorSearch dist s.index qv topK thr) ∧
    (∀ p ∈ vectorSearch dist s.index qv topK thr,
      ∀ h : p.1 < s.documents.length,
        (s.documents.get ⟨p.1, h⟩, p.2) ∈ engineSearchCandidates dist s qv topK thr) ∧
    (engineSearchCandidates dist s qv topK thr).length ≤
      (vectorSearch dist s.index qv topK thr).length := by
  refine ⟨?_, ?_, List.length_filterMap_le _ _⟩
  · intro r hr
    obtain ⟨p, hp, hfp⟩ := List.mem_filterMap.mp hr
    cases hget : s.documents[p.1]? with
    | none => rw [hget] at hfp; simp at hfp
    | some d =>
      rw [hget] at hfp
      simp only [Option.map_some'] at hfp
      have hlt : p.1 < s.documents.length := by
        by_contra hge
        rw [List.getElem?_eq_none (by omega)] at hget
        exact Option.noConfusion hget
      have hdr : (d, p.2) = r := Option.some.inj hfp
      subst hdr
      refine ⟨p.1, hlt, ?_, ?_⟩
      · simp only [List.get_eq_getElem]
        rw [List.getElem?_eq_getElem hlt] at hget
        exact (Option.some.inj hget).symm
      · simpa using hp
  · intro p hp h
    refine List.mem_filterMap.mpr ⟨p, hp, ?_⟩
    rw [List.getElem?_eq_getElem h]
    simp

/-- Witness for C10: a state whose index holds two vectors but whose
documents list has a single record; the hit at position 1 is skipped and the
candidate list is exactly the record at position 0, which the claim's first
conjunct re-derives. -/
theorem engineSearch_claim_witness :
    engineSearchCandidates (fun _ v : ℚ => v)
        ⟨[⟨"c0", some "d1", 0⟩], some [(0:ℚ), 1]⟩ 0 5 none =
      [(⟨"c0", some "d1", 0⟩, 0)] ∧
    (∃ i : ℕ, ∃ h : i < ([⟨"c0", some "d1", 0⟩] : List EChunk).length,
      ((⟨"c0", some "d1", 0⟩ : EChunk), (0:ℚ)).1 =
        ([⟨"c0", some "d1", 0⟩] : List EChunk).get ⟨i, h⟩ ∧
      (i, (0:ℚ)) ∈ vectorSearch (fun _ v : ℚ => v) (some [(0:ℚ), 1]) 0 5 none) := by
  constructor
  · decide
  · have h := (engineSearch_claim (fun _ v : ℚ => v)
      ⟨[⟨"c0", some "d1", 0⟩], some [(0:ℚ), 1]⟩ 0 5 none).1
      (⟨"c0", some "d1", 0⟩, 0) (by decide)
    simpa using h

/-! ## DocumentManager (claims C8, C9) — `src/backend/src/services/faiss/manager.py`

`self.documents` is a Python dict id → record, modelled as an
insertion-ordered association list; `_save_documents` writes it to disk,
modelled by the `persisted` copy carried in the state.  The SHA-256 content
digest is an opaque injective-or-not `hash : String → String`; UUID
generation is the supplied `genId` string. -/

structure MDoc where
  id : String
  content : String
  contentHash : String
  version : ℕ
  sizeBytes : ℕ
deriving DecidableEq, Repr

structure ManagerState where
  documents : List (String × MDoc)
  persisted : List (String × MDoc)
deriving DecidableEq, Repr

deriving instance DecidableEq for Except

/-- The reject reasons of `add_document` (`ValueError`s in the source; the
spec's `DocumentLimitError` / `DuplicateIdError` / `DuplicateContentError`). -/
inductive AddDocError : Type
  | documentLimit
  | duplicateId
  | duplicateContent
deriving DecidableEq, Repr

/-- Python `self.documents[doc_id] = doc`: replace the binding in place when
the key exists, else append (dict insertion order). -/
def assocSet (docs : List (String × MDoc)) (k : String) (v : MDoc) :
    List (String × MDoc) :=
  if docs.any (fun p => decide (p.1 = k)) then
    docs.map (fun p => if p.1 = k then (k, v) else p)
  else docs ++ [(k, v)]

/-- Embedding of `DocumentManager.add_document`: the limit check, the
duplicate-custom-id check, and the duplicate-content check run in that
order, each rejecting before any mutation; then the record is inserted and
persisted.  Python truthiness makes an empty-string `custom_id` behave as
absent in both the `doc_id` choice and the duplicate-id check. -/
def addDocument (hash : String → String) (genId : String) (content : String)
    (customId : Option String) (st : ManagerState) :
    ManagerState × Except AddDocError MDoc :=
  if 10000 ≤ st.documents.length then
    (st, Except.error AddDocError.documentLimit)
  else
    let docId := match customId with
      | some c => if c = "" then genId else c
      | none => genId
    let isCustom : Bool := match customId with
      | some c => !(decide (c = ""))
      | none => false
    if isCustom && st.documents.any (fun p => decide (p.1 = docId)) then
      (st, Except.error AddDocError.duplicateId)
    else
      let contentHash := hash content
      if st.documents.any (fun p => decide (p.2.contentHash = contentHash)) then
        (st, Except.error AddDocError.duplicateContent)
      else
        let doc : MDoc := ⟨docId, content, contentHash, 1, content.length⟩
        let docs2 := assocSet st.documents docId doc
        (⟨docs2, docs2⟩, Except.ok doc)

/-- Embedding of `DocumentManager.delete_document`: delete the binding and
persist, returning `True`; an unknown id returns `False` (a warning, not an
error) with nothing touched. -/
def deleteDocument (docId : String) (st : ManagerState) : ManagerState × Bool :=
  if st.documents.any (fun p => decide (p.1 = docId)) then
    let docs2 := st.documents.filter (fun p => !(decide (p.1 = docId)))
    (⟨docs2, docs2⟩, true)
  else
    (st, false)

/-- C8 counterexample: a call whose content duplicates the stored document's
content hash *and* whose custom id is already taken fails with
`DuplicateIdError`, not `DuplicateContentError` — the duplicate-id check runs
first — so the claim's "every duplicate-content call fails with
DuplicateContentError" is false as stated.  (`hash` is instantiated with the
identity, so the stored record's `content_hash` is its content.) -/
theorem addDocument_claim_counterexample :
    addDocument (fun c => c) "gen" "x" (some "a")
        ⟨[("a", ⟨"a", "x", "x", 1, 1⟩)], [("a", ⟨"a", "x", "x", 1, 1⟩)]⟩ =
      (⟨[("a", ⟨"a", "x", "x", 1, 1⟩)], [("a", ⟨"a", "x", "x", 1, 1⟩)]⟩,
        Except.error AddDocError.duplicateId) ∧
    ([("a", (⟨"a", "x", "x", 1, 1⟩ : MDoc))].any
      (fun p => decide (p.2.contentHash = (fun c : String => c) "x")) = true) ∧
    AddDocError.duplicateId ≠ AddDocError.duplicateContent := by
  refine ⟨by decide, by decide, by decide⟩

/-- C8 amended: `add_document` rejects with no mutation — the live document
map and its persisted form both exactly as before — in all three reject
cases, with check precedence limit ▸ duplicate-id ▸ duplicate-content: a
call at the document limit fails with `DocumentLimitError`; below the limit,
a taken (nonempty) custom id fails with `DuplicateIdError`; below the limit
and with the custom id (if any) not taken, content duplicating a stored
document's content hash fails with `DuplicateContentError`. -/
theorem addDocument_amended (hash : String → String) (genId : String)
    (content : String) (customId : Option String) (st : ManagerState) :
    (10000 ≤ st.documents.length →
      addDocument hash genId content customId st =
        (st, Except.error AddDocError.documentLimit)) ∧
    (st.documents.length < 10000 →
      ∀ c : String, customId = some c → c ≠ "" →
      st.documents.any (fun p => decide (p.1 = c)) = true →
      addDocument hash genId content customId st =
        (st, Except.error AddDocError.duplicateId)) ∧
    (st.documents.length < 10000 → customId = none →
      st.documents.any (fun p => decide (p.2.contentHash = hash content)) = true →
      addDocument hash genId content customId st =
        (st, Except.error AddDocError.duplicateContent)) ∧
    (st.documents.length < 10000 →
      ∀ c : String, customId = some c → c ≠ "" →
      st.documents.any (fun p => decide (p.1 = c)) = false →
      st.documents.any (fun p => decide (p.2.contentHash = hash content)) = true →
      addDocument hash genId content customId st =
        (st, Except.error AddDocError.duplicateContent)) := by
  refine ⟨?_, ?_, ?_, ?_⟩
  · intro hlim
    simp only [addDocument, hlim, if_true]
  · intro hlim c hc hcne hany
    subst hc
    simp only [addDocument, hcne, hany, decide_eq_true_eq, if_neg (by omega : ¬ 10000 ≤ st.documents.length)]
    simp [hcne, hany]
  · intro hlim hc hany
    subst hc
    simp only [addDocument, if_neg (by omega : ¬ 10000 ≤ st.documents.length)]
    simp [hany]
  · intro hlim c hc hcne hid hany
    subst hc
    simp only [addDocument, if_neg (by omega : ¬ 10000 ≤ st.documents.length)]
    simp [hcne, hid, hany]

/-- Witness for C8 (amended): a 10000-document state rejects with the limit
error; a one-document state rejects a taken custom id with the duplicate-id
error and duplicate content (identity hash) with the duplicate-content
error, each leaving the state exactly as it was. -/
theorem addDocument_amended_witness :
    addDocument (fun c => c) "gen" "y" none
        ⟨(List.range 10000).map (fun i => (toString i, ⟨toString i, "", "", 1, 0⟩)),
          []⟩ =
      (⟨(List.range 10000).map (fun i => (toString i, ⟨toString i, "", "", 1, 0⟩)),
          []⟩, Except.error AddDocError.documentLimit) ∧
    addDocument (fun c => c) "gen" "y" (some "a")
        ⟨[("a", ⟨"a", "x", "x", 1, 1⟩)], [("a", ⟨"a", "x", "x", 1, 1⟩)]⟩ =
      (⟨[("a", ⟨"a", "x", "x", 1, 1⟩)], [("a", ⟨"a", "x", "x", 1, 1⟩)]⟩,
        Except.error AddDocError.duplicateId) ∧
    addDocument (fun c => c) "gen" "x" none
        ⟨[("a", ⟨"a", "x", "x", 1, 1⟩)], [("a", ⟨"a", "x", "x", 1, 1⟩)]⟩ =
      (⟨[("a", ⟨"a", "x", "x", 1, 1⟩)], [("a", ⟨"a", "x", "x", 1, 1⟩)]⟩,
        Except.error AddDocError.duplicateContent) := by
  refine ⟨?_, ?_, ?_⟩
  · exact (addDocument_amended (fun c => c) "gen" "y" none _).1
      (by simp [List.length_map, List.length_range])
  · exact (addDocument_amended (fun c => c) "gen" "y" (some "a") _).2.1
      (by decide) "a" rfl (by decide) (by decide)
  · exact (addDocument_amended (fun c => c) "gen" "x" none _).2.2.1
      (by decide) rfl (by decide)

/-- C9: `remove_document` returns a boolean that is `False` when no stored
document has the id — the unknown id is a no-op (a warning-level signal, not
an error) with the live and persisted maps untouched — and `True` with the
binding removed and persisted otherwise; at the index layer, when chunks are
removed the index is rebuilt from the remaining chunk texts, or reset to a
fresh empty index when no chunks remain, and an unknown id leaves the engine
state untouched. -/
theorem removeDocument_claim {V : Type} (embed : String → V) (docId : String)
    (st : ManagerState) (s : EngineState V) :
    (st.documents.any (fun p => decide (p.1 = docId)) = false →
      deleteDocument docId st = (st, false)) ∧
    (st.documents.any (fun p => decide (p.1 = docId)) = true →
      (deleteDocument docId st).2 = true ∧
      (deleteDocument docId st).1.documents =
        st.documents.filter (fun p => !(decide (p.1 = docId))) ∧
      (deleteDocument docId st).1.persisted = (deleteDocument docId st).1.documents) ∧
    ((s.documents.filter (fun d => d.docId ≠ some docId)).length = s.documents.length →
      removeDocumentFromIndex embed false docId s = (s, false)) ∧
    ((s.documents.filter (fun d => d.docId ≠ some docId)).length ≠ s.documents.length →
      (s.documents.filter (fun d => d.docId ≠ some docId) ≠ [] →
        (removeDocumentFromIndex embed false docId s).1.index =
          some ((s.documents.filter (fun d => d.docId ≠ some docId)).map
            (fun d => embed d.text)) ∧
        (removeDocumentFromIndex embed false docId s).1.documents =
          s.documents.filter (fun d => d.docId ≠ some docId)) ∧
      (s.documents.filter (fun d => d.docId ≠ some docId) = [] →
        (removeDocumentFromIndex embed false docId s).1.index = some [] ∧
        (removeDocumentFromIndex embed false docId s).1.documents = [])) := by
  refine ⟨?_, ?_, ?_, ?_⟩
  · intro hnone
    simp only [deleteDocument, hnone, Bool.false_eq_true, if_false]
  · intro hsome
    simp only [deleteDocument, hsome, if_true]
    refine ⟨?_, ?_, ?_⟩ <;> simp
  · intro heq
    simp only [removeDocumentFromIndex, heq, if_pos]
  · intro hne
    constructor
    · intro hrne
      have hemp : ¬ (s.documents.filter (fun d => d.docId ≠ some docId)).isEmpty = true := by
        simpa [List.isEmpty_iff] using hrne
      simp only [removeDocumentFromIndex, if_neg hne, hemp, Bool.false_eq_true, if_false,
        Bool.false_eq_true]
      refine ⟨?_, ?_⟩ <;> simp
    · intro hrnil
      have hemp : (s.documents.filter (fun d => d.docId ≠ some docId)).isEmpty = true := by
        rw [hrnil]
        rfl
      simp only [removeDocumentFromIndex, if_neg hne, hemp, if_true]
      refine ⟨?_, ?_⟩
      · simp
      · exact hrnil

/-- Witness for C9: deleting an unknown id from a one-document store returns
`False` and changes nothing; deleting the stored id returns `True`; at the
index layer, removing `d1` from a two-document engine rebuilds the index
from the surviving chunk text, and removing the only document resets the
index to empty. -/
theorem removeDocument_claim_witness :
    deleteDocument "zzz" ⟨[("a", ⟨"a", "x", "x", 1, 1⟩)], [("a", ⟨"a", "x", "x", 1, 1⟩)]⟩ =
      (⟨[("a", ⟨"a", "x", "x", 1, 1⟩)], [("a", ⟨"a", "x", "x", 1, 1⟩)]⟩, false) ∧
    (deleteDocument "a" ⟨[("a", ⟨"a", "x", "x", 1, 1⟩)], [("a", ⟨"a", "x", "x", 1, 1⟩)]⟩).2
      = true ∧
    (removeDocumentFromIndex (fun t => t) false "d1"
        ⟨[⟨"t1", some "d1", 0⟩, ⟨"t2", some "d2", 0⟩], some ["t1", "t2"]⟩).1.index =
      some ["t2"] ∧
    (removeDocumentFromIndex (fun t => t) false "d2"
        ⟨[⟨"t2", some "d2", 0⟩], some ["t2"]⟩).1.index = some [] := by
  refine ⟨?_, ?_, ?_, ?_⟩
  · exact (removeDocument_claim (fun t : String => t) "zzz"
      ⟨[("a", ⟨"a", "x", "x", 1, 1⟩)], [("a", ⟨"a", "x", "x", 1, 1⟩)]⟩
      engineInit).1 (by decide)
  · exact ((removeDocument_claim (fun t : String => t) "a"
      ⟨[("a", ⟨"a", "x", "x", 1, 1⟩)], [("a", ⟨"a", "x", "x", 1, 1⟩)]⟩
      engineInit).2.1 (by decide)).1
  · have h := ((removeDocument_claim (fun t : String => t) "d1"
      ⟨[], []⟩
      ⟨[⟨"t1", some "d1", 0⟩, ⟨"t2", some "d2", 0⟩], some ["t1", "t2"]⟩).2.2.2
        (by decide)).1 (by decide)
    simpa using h.1
  · have h := ((removeDocument_claim (fun t : String => t) "d2"
      ⟨[], []⟩
      ⟨[⟨"t2", some "d2", 0⟩], some ["t2"]⟩).2.2.2 (by decide)).2 (by decide)
    exact h.1

/-! ## Cosine similarity over rational-component vectors

Embedding vectors have exact rational components; the Euclidean norm is a
real square root, so cosine similarity is real-valued and the functions
branching on it are noncomputable — the claims compare it against rational
thresholds. -/

/-- `np.dot` of two equal-length vectors. -/
def dotQ (a b : List ℚ) : ℚ := (a.zipWith (fun x y => x * y) b).sum

/-- `np.linalg.norm`. -/
noncomputable def vecNorm (v : List ℚ) : ℝ := Real.sqrt ((dotQ v v : ℚ) : ℝ)

/-- `np.dot(a, b) / (norm(a) * norm(b))` with the zero-norm guard of
`SemanticCache._cosine_similarity` (returns `0.0` for a zero vector). -/
noncomputable def cosineSim (a b : List ℚ) : ℝ :=
  if vecNorm a = 0 ∨ vecNorm b = 0 then 0
  else ((dotQ a b : ℚ) : ℝ) / (vecNorm a * vecNorm b)

theorem vecNorm_eval (v : List ℚ) (q : ℚ) (h : dotQ v v = q * q) (hq : 0 ≤ q) :
    vecNorm v = (q : ℝ) := by
  rw [vecNorm, h]
  push_cast
  exact Real.sqrt_mul_self (by exact_mod_cast hq)

/-! ## SemanticCache (claim C6) — `src/backend/src/services/cache/semantic.py`

State: `self.cache : {query_hash: (embedding, result, timestamp, ttl)}` and
`self.embeddings : [(query_hash, embedding)]`.  `get` is modelled as a pure
function of the state and the current time; the `_cleanup_expired()` call at
its start removes exactly the entries the scan loop skips anyway, so the
returned value is unchanged by eliding it. -/

structure CacheEntry (ρ : Type) where
  emb : List ℚ
  result : ρ
  timestamp : ℚ
  ttl : ℚ

/-- The two containers of `SemanticCache`. -/
structure SemanticCacheState (ρ : Type) where
  cache : List (String × CacheEntry ρ)
  embs : List (String × List ℚ)

/-- `any(char.isdigit() for char in query)`. -/
def containsDigit (q : String) : Bool := q.data.any Char.isDigit

/-- `SemanticCache._get_similarity_threshold`: digit-containing queries need
0.98, long queries (more than 10 words) accept 0.93, everything else uses
the configured default. -/
def similarityThreshold (defaultThr : ℚ) (q : String) : ℚ :=
  if containsDigit q then 98/100
  else if 10 < (splitWords q).length then 93/100
  else defaultThr

/-- The constructor default `threshold: float = 0.95`. -/
def semanticCacheDefaultThreshold : ℚ := 95/100

/-- One iteration of the best-match scan in `SemanticCache.get`: skip hashes
evicted from the cache dict, skip expired entries
(`current_time - timestamp > ttl`), and keep the strictly best similarity. -/
noncomputable def considerEntry {ρ : Type} (cache : List (String × CacheEntry ρ))
    (now : ℚ) (qv : List ℚ) (acc : Option String × ℝ) (p : String × List ℚ) :
    Option String × ℝ :=
  match List.lookup p.1 cache with
  | none => acc
  | some e =>
    if e.ttl < now - e.timestamp then acc
    else if acc.2 < cosineSim qv p.2 then (some p.1, cosineSim qv p.2) else acc

/-- Embedding of `SemanticCache.get`: embed the query, compute the adaptive
threshold, scan all stored embeddings for the best unexpired similarity
(starting from `best_match = None, best_similarity = 0.0`), and return the
hit with its similarity when one was found at or above the threshold. -/
noncomputable def semanticCacheGet {ρ : Type} (embed : String → List ℚ)
    (defaultThr : ℚ) (now : ℚ) (st : SemanticCacheState ρ) (q : String) :
    Option (ρ × ℝ) :=
  let qv := embed q
  let thr := similarityThreshold defaultThr q
  let best := st.embs.foldl (considerEntry st.cache now qv) (none, 0)
  match best.1 with
  | none => none
  | some hmatch =>
    if ((thr : ℚ) : ℝ) ≤ best.2 then
      match List.lookup hmatch st.cache with
      | some e => some (e.result, best.2)
      | none => none
    else none

/-- The invariant of the best-match scan: an empty accumulator has score 0; a
nonempty one records an unexpired processed entry and its similarity; the
accumulator's score dominates every unexpired processed entry. -/
def ScanAcc {ρ : Type} (cache : List (String × CacheEntry ρ)) (now : ℚ)
    (qv : List ℚ) (processed : List (String × List ℚ))
    (acc : Option String × ℝ) : Prop :=
  (acc.1 = none → acc.2 = 0) ∧
  (∀ hm : String, acc.1 = some hm →
    ∃ p ∈ processed, p.1 = hm ∧ ∃ e : CacheEntry ρ,
      List.lookup p.1 cache = some e ∧ now - e.timestamp ≤ e.ttl ∧
      acc.2 = cosineSim qv p.2) ∧
  (∀ p ∈ processed, ∀ e : CacheEntry ρ,
    List.lookup p.1 cache = some e → now - e.timestamp ≤ e.ttl →
    cosineSim qv p.2 ≤ acc.2)

theorem scanAcc_foldl {ρ : Type} (cache : List (String × CacheEntry ρ)) (now : ℚ)
    (qv : List ℚ) :
    ∀ (l processed : List (String × List ℚ)) (acc : Option String × ℝ),
      ScanAcc cache now qv processed acc →
      ScanAcc cache now qv (processed ++ l) (l.foldl (considerEntry cache now qv) acc) := by
  intro l
  induction l with
  | nil =>
    intro processed acc hacc
    simpa using hacc
  | cons p rest ih =>
    intro processed acc hacc
    have hstep : ScanAcc cache now qv (processed ++ [p])
        (considerEntry cache now qv acc p) := by
      unfold considerEntry
      cases hlu : List.lookup p.1 cache with
      | none =>
        refine ⟨hacc.1, ?_, ?_⟩
        · intro hm hsome
          obtain ⟨p2, hp2, rest2⟩ := hacc.2.1 hm hsome
          exact ⟨p2, List.mem_append_left _ hp2, rest2⟩
        · intro p2 hp2 e hle hexp
          rcases List.mem_append.mp hp2 with hp2 | hp2
          · exact hacc.2.2 p2 hp2 e hle hexp
          · rw [List.mem_singleton.mp hp2] at hle
            rw [hlu] at hle
            exact Option.noConfusion hle
      | some e =>
        by_cases hexp : e.ttl < now - e.timestamp
        · simp only [if_pos hexp]
          refine ⟨hacc.1, ?_, ?_⟩
          · intro hm hsome
            obtain ⟨p2, hp2, rest2⟩ := hacc.2.1 hm hsome
            exact ⟨p2, List.mem_append_left _ hp2, rest2⟩
          · intro p2 hp2 e2 hle hexp2
            rcases List.mem_append.mp hp2 with hp2 | hp2
            · exact hacc.2.2 p2 hp2 e2 hle hexp2
            · rw [List.mem_singleton.mp hp2] at hle
              rw [hlu] at hle
              rw [← Option.some.inj hle] at hexp2
              exact absurd hexp (not_lt.mpr hexp2)
        · simp only [if_neg hexp]
          by_cases hbetter : acc.2 < cosineSim qv p.2
          · rw [if_pos hbetter]
            refine ⟨by simp, ?_, ?_⟩
            · intro hm hsome
              refine ⟨p, List.mem_append_right _ (List.mem_singleton_self p), ?_,
                e, hlu, not_lt.mp hexp, rfl⟩
              simpa using hsome
            · intro p2 hp2 e2 hle hexp2
              rcases List.mem_append.mp hp2 with hp2 | hp2
              · exact le_trans (hacc.2.2 p2 hp2 e2 hle hexp2) (le_of_lt hbetter)
              · rw [List.mem_singleton.mp hp2]
          · rw [if_neg hbetter]
            refine ⟨hacc.1, ?_, ?_⟩
            · intro hm hsome
              obtain ⟨p2, hp2, rest2⟩ := hacc.2.1 hm hsome
              exact ⟨p2, List.mem_append_left _ hp2, rest2⟩
            · intro p2 hp2 e2 hle hexp2
              rcases List.mem_append.mp hp2 with hp2 | hp2
              · exact hacc.2.2 p2 hp2 e2 hle hexp2
              · rw [List.mem_singleton.mp hp2]
                exact not_lt.mp hbetter
    have := ih (processed ++ [p]) (considerEntry cache now qv acc p) hstep
    simpa [List.append_assoc] using this

/-- C6: the semantic cache's `get` returns a stored entry only when the
cosine similarity between the query's embedding and that entry's unexpired
stored embedding is at least the adaptive threshold — `0.98` for a query
containing a digit, `0.93` for a digit-free query of more than 10 words, and
the configured default (`0.95` out of the box) otherwise — and the returned
hit is an unexpired entry of maximal similarity among all unexpired stored
embeddings. -/
theorem semanticCacheGet_claim {ρ : Type} (embed : String → List ℚ)
    (defaultThr : ℚ) (now : ℚ) (st : SemanticCacheState ρ) (q : String) :
    (containsDigit q = true → similarityThreshold defaultThr q = 98/100) ∧
    (containsDigit q = false → 10 < (splitWords q).length →
      similarityThreshold defaultThr q = 93/100) ∧
    (containsDigit q = false → (splitWords q).length ≤ 10 →
      similarityThreshold defaultThr q = defaultThr) ∧
    semanticCacheDefaultThreshold = 95/100 ∧
    (∀ hit : ρ × ℝ, semanticCacheGet embed defaultThr now st q = some hit →
      ((similarityThreshold defaultThr q : ℚ) : ℝ) ≤ hit.2 ∧
      (∃ p ∈ st.embs, ∃ e : CacheEntry ρ,
        List.lookup p.1 st.cache = some e ∧ now - e.timestamp ≤ e.ttl ∧
        hit.2 = cosineSim (embed q) p.2 ∧ hit.1 = e.result) ∧
      (∀ p ∈ st.embs, ∀ e : CacheEntry ρ,
        List.lookup p.1 st.cache = some e → now - e.timestamp ≤ e.ttl →
        cosineSim (embed q) p.2 ≤ hit.2)) := by
  refine ⟨?_, ?_, ?_, rfl, ?_⟩
  · intro hd
    simp [similarityThreshold, hd]
  · intro hd hl
    simp [similarityThreshold, hd, hl]
  · intro hd hl
    simp [similarityThreshold, hd, not_lt.mpr hl]
  · intro hit hget
    have hgood := scanAcc_foldl st.cache now (embed q) st.embs [] (none, (0:ℝ))
      ⟨fun _ => rfl, by simp [ScanAcc], by simp⟩
    simp only [List.nil_append] at hgood
    simp only [semanticCacheGet] at hget
    set best := st.embs.foldl (considerEntry st.cache now (embed q)) (none, (0:ℝ))
      with hbest
    cases hb : best.1 with
    | none =>
      rw [hb] at hget
      simp at hget
    | some hm =>
      rw [hb] at hget
      simp only [] at hget
      by_cases hthr : ((similarityThreshold defaultThr q : ℚ) : ℝ) ≤ best.2
      · rw [if_pos hthr] at hget
        obtain ⟨p, hp, hpm, e0, hlue, hexp, hsim⟩ := hgood.2.1 hm hb
        rw [hpm] at hlue
        rw [hlue] at hget
        simp only [] at hget
        have hhit : (e0.result, best.2) = hit := Option.some.inj hget
        refine ⟨?_, ⟨p, hp, e0, by rw [hpm]; exact hlue, hexp, ?_, ?_⟩, ?_⟩
        · rw [← hhit]
          exact hthr
        · rw [← hhit]
          exact hsim
        · rw [← hhit]
        · intro p2 hp2 e2 hle2 hexp2
          rw [← hhit]
          exact hgood.2.2 p2 hp2 e2 hle2 hexp2
      · rw [if_neg hthr] at hget
        exact Option.noConfusion hget

theorem cosineSim_parallel_unit : cosineSim [(1:ℚ), 0] [(2:ℚ), 0] = 1 := by
  have hn1 : vecNorm [(1:ℚ), 0] = 1 := by
    have := vecNorm_eval [(1:ℚ), 0] 1 (by norm_num [dotQ]) (by norm_num)
    simpa using this
  have hn2 : vecNorm [(2:ℚ), 0] = 2 := by
    have := vecNorm_eval [(2:ℚ), 0] 2 (by norm_num [dotQ]) (by norm_num)
    simpa using this
  rw [cosineSim, if_neg (by rw [hn1, hn2]; norm_num), hn1, hn2]
  norm_num [dotQ]

/-- Witness for C6: one unexpired cached entry with embedding parallel to the
query's (similarity exactly 1); the digit-containing query `"q1"` uses the
0.98 threshold and hits, returning the stored result with similarity 1. -/
theorem semanticCacheGet_claim_witness :
    semanticCacheGet (fun _ => [(1:ℚ), 0]) (95/100) 1
        ⟨[("h1", ⟨[2, 0], "r", 0, 10⟩)], [("h1", [(2:ℚ), 0])]⟩ "q1" =
      some ("r", (1:ℝ)) ∧
    ((similarityThreshold (95/100) "q1" : ℚ) : ℝ) ≤ (1:ℝ) ∧
    similarityThreshold (95/100) "q1" = 98/100 := by
  have hdigit : containsDigit "q1" = true := by decide
  have hthrv : similarityThreshold (95/100) "q1" = 98/100 :=
    (semanticCacheGet_claim (ρ := String) (fun _ => [(1:ℚ), 0]) (95/100) 1
      ⟨[("h1", ⟨[2, 0], "r", 0, 10⟩)], [("h1", [(2:ℚ), 0])]⟩ "q1").1 hdigit
  have hfold : ([("h1", [(2:ℚ), 0])] : List (String × List ℚ)).foldl
      (considerEntry [("h1", (⟨[2, 0], "r", 0, 10⟩ : CacheEntry String))] 1 [(1:ℚ), 0])
      (none, (0:ℝ)) = (some "h1", (1:ℝ)) := by
    simp only [List.foldl_cons, List.foldl_nil, considerEntry, List.lookup,
      beq_self_eq_true, if_pos]
    rw [cosineSim_parallel_unit]
    norm_num
  have heval : semanticCacheGet (fun _ => [(1:ℚ), 0]) (95/100) 1
      ⟨[("h1", ⟨[2, 0], "r", 0, 10⟩)], [("h1", [(2:ℚ), 0])]⟩ "q1" =
      some ("r", (1:ℝ)) := by
    simp only [semanticCacheGet]
    rw [hfold]
    simp only [hthrv]
    rw [if_pos (by norm_num)]
    simp [List.lookup]
  refine ⟨heval, ?_, hthrv⟩
  have h2 := ((semanticCacheGet_claim (ρ := String) (fun _ => [(1:ℚ), 0]) (95/100) 1
    ⟨[("h1", ⟨[2, 0], "r", 0, 10⟩)], [("h1", [(2:ℚ), 0])]⟩ "q1").2.2.2.2
    ("r", (1:ℝ)) heval).1
  simpa using h2

/-! ## WebSearchAgent._deduplicate_results / _enforce_diversity (claim C7) —
`src/backend/src/orchestration/web_search.py`

A fused web result as the deduplicator sees it: an identifying payload
(`rid` stands for the rest of the result dict), the `domain`, and the
optional `embedding` (a missing key and an empty list are both falsy in
`if 'embedding' in r and r['embedding']`, so an empty embedding skips the
similarity check too). -/

structure WResult where
  rid : ℕ
  domain : String
  emb : Option (List ℚ)
deriving DecidableEq, Repr

/-- The inner duplicate scan of `_deduplicate_results`: the candidate with
embedding `v` is a duplicate when some already-kept result has a nonempty
embedding `w` of positive norm with `similarity > threshold`.  (The source
computes `np.dot(r_vec, e_vec) / (r_norm * e_norm)` under guards
`r_norm != 0` and `e_norm > 0`, which is exactly `cosineSim` there.) -/
def IsDupAgainst (thr : ℝ) (v : List ℚ) (kept : List WResult) : Prop :=
  ∃ x ∈ kept, ∃ w : List ℚ, x.emb = some w ∧ w ≠ [] ∧ 0 < vecNorm w ∧
    thr < cosineSim v w

open Classical in
/-- The outer loop of `_deduplicate_results` over `results[1:]`, carrying the
`deduplicated` list: a candidate without a (nonempty) embedding, or with a
zero-norm embedding, is always kept; otherwise it is kept iff it is not a
duplicate of an already-kept result. -/
noncomputable def dedupScan (thr : ℝ) : List WResult → List WResult → List WResult
  | [], kept => kept
  | r :: rest, kept =>
    match r.emb with
    | none => dedupScan thr rest (kept ++ [r])
    | some v =>
      if v = [] then dedupScan thr rest (kept ++ [r])
      else if vecNorm v = 0 then dedupScan thr rest (kept ++ [r])
      else if IsDupAgainst thr v kept then dedupScan thr rest kept
      else dedupScan thr rest (kept ++ [r])

/-- Python `set.add`. -/
def dInsert (d : String) (ds : List String) : List String :=
  if d ∈ ds then ds else ds ++ [d]

/-- First pass of `_enforce_diversity`: walk the results, keeping a result
when its domain is new *or* fewer than `min_domains` distinct domains have
been collected, and stop as soon as 10 results are kept. -/
def diversityFirstPass (minD : ℕ) : List WResult → List WResult → List String → List WResult
  | [], diverse, _ => diverse
  | r :: rest, diverse, domains =>
    if r.domain ∉ domains ∨ domains.length < minD then
      if 10 ≤ (diverse ++ [r]).length then diverse ++ [r]
      else diversityFirstPass minD rest (diverse ++ [r]) (dInsert r.domain domains)
    else diversityFirstPass minD rest diverse domains

/-- Second pass of `_enforce_diversity`: fill remaining slots (up to 10) with
results not already kept, in order. -/
def diversitySecondPass : List WResult → List WResult → List WResult
  | [], diverse => diverse
  | r :: rest, diverse =>
    if r ∉ diverse ∧ diverse.length < 10 then diversitySecondPass rest (diverse ++ [r])
    else diversitySecondPass rest diverse

/-- Embedding of `_enforce_diversity` (default `min_domains = 3`): lists no
longer than `min_domains` pass through unchanged. -/
def enforceDiversity (minD : ℕ) (rs : List WResult) : List WResult :=
  if rs.length ≤ minD then rs
  else diversitySecondPass rs (diversityFirstPass minD rs [] [])

/-- Embedding of `_deduplicate_results` (deduplication enabled, numpy
present): fewer than two results pass through untouched; otherwise the scan
runs from `[results[0]]` and diversity enforcement follows. -/
noncomputable def deduplicateResults (thr : ℝ) (rs : List WResult) : List WResult :=
  match rs with
  | [] => []
  | [r] => [r]
  | r0 :: rest => enforceDiversity 3 (dedupScan thr rest [r0])

/-- The concrete fusion input refuting C7: twelve results, the first ten from
domain `d0` (the first two with embeddings at cosine similarity exactly
`0.9`), the last two from the distinct domains `d1` and `d2`. -/
def c7Input : List WResult :=
  [⟨1, "d0", some [1, 0, 0, 0]⟩, ⟨2, "d0", some [9, 3, 3, 1]⟩,
   ⟨3, "d0", none⟩, ⟨4, "d0", none⟩, ⟨5, "d0", none⟩, ⟨6, "d0", none⟩,
   ⟨7, "d0", none⟩, ⟨8, "d0", none⟩, ⟨9, "d0", none⟩, ⟨10, "d0", none⟩,
   ⟨11, "d1", none⟩, ⟨12, "d2", none⟩]

/-- What the source actually keeps on `c7Input`. -/
def c7Kept : List WResult :=
  [⟨1, "d0", some [1, 0, 0, 0]⟩, ⟨2, "d0", some [9, 3, 3, 1]⟩,
   ⟨3, "d0", none⟩, ⟨4, "d0", none⟩, ⟨5, "d0", none⟩, ⟨6, "d0", none⟩,
   ⟨7, "d0", none⟩, ⟨8, "d0", none⟩, ⟨9, "d0", none⟩, ⟨10, "d0", none⟩]

theorem vecNorm_c7a : vecNorm [(1:ℚ), 0, 0, 0] = 1 := by
  have := vecNorm_eval [(1:ℚ), 0, 0, 0] 1 (by norm_num [dotQ]) (by norm_num)
  simpa using this

theorem vecNorm_c7b : vecNorm [(9:ℚ), 3, 3, 1] = 10 := by
  have := vecNorm_eval [(9:ℚ), 3, 3, 1] 10 (by norm_num [dotQ]) (by norm_num)
  simpa using this

/-- The two embedded results of `c7Input` sit at cosine similarity exactly
`9/10`. -/
theorem cosineSim_c7 : cosineSim [(9:ℚ), 3, 3, 1] [(1:ℚ), 0, 0, 0] = 9/10 := by
  rw [cosineSim, if_neg (by rw [vecNorm_c7a, vecNorm_c7b]; norm_num),
    vecNorm_c7a, vecNorm_c7b]
  norm_num [dotQ]

/-- C7 counterexample: on `c7Input` with the default threshold `0.9`, the
candidate at cosine similarity exactly `0.9` to a kept result is *not*
dropped (the source drops only on strict `>`), ten results of one domain are
kept (no per-domain cap of 2), and the two other available domains are
excluded entirely (no `min_domains` guarantee) — against the claim that a
`≥ 0.9` pair collapses and that diversity caps a domain at 2 while
guaranteeing `min_domains` distinct domains. -/
theorem deduplicateResults_claim_counterexample :
    deduplicateResults (9/10) c7Input = c7Kept ∧
    cosineSim [(9:ℚ), 3, 3, 1] [(1:ℚ), 0, 0, 0] = 9/10 ∧
    ((9:ℝ)/10) ≥ 9/10 ∧
    (⟨1, "d0", some [1, 0, 0, 0]⟩ : WResult) ∈ c7Kept ∧
    (⟨2, "d0", some [9, 3, 3, 1]⟩ : WResult) ∈ c7Kept ∧
    (c7Kept.filter (fun r => decide (r.domain = "d0"))).length = 10 ∧
    (⟨11, "d1", none⟩ : WResult) ∈ c7Input ∧
    (⟨12, "d2", none⟩ : WResult) ∈ c7Input ∧
    (∀ r ∈ c7Kept, r.domain = "d0") := by
  have hnd : ¬ IsDupAgainst ((9:ℝ)/10) [(9:ℚ), 3, 3, 1]
      [⟨1, "d0", some [1, 0, 0, 0]⟩] := by
    rintro ⟨x, hx, w, hw, hwne, hwn, hlt⟩
    rw [List.mem_singleton.mp hx] at hw
    simp only [Option.some.injEq] at hw
    rw [← hw, cosineSim_c7] at hlt
    exact absurd hlt (by norm_num)
  have hscan : dedupScan (9/10) (c7Input.drop 1) [⟨1, "d0", some [1, 0, 0, 0]⟩] =
      c7Input := by
    show dedupScan (9/10) _ _ = _
    simp only [c7Input, List.drop_succ_cons, List.drop_zero]
    rw [dedupScan]
    simp only []
    rw [if_neg (by decide), if_neg (by rw [vecNorm_c7b]; norm_num), if_neg hnd]
    simp [dedupScan, c7Input]
  have heq : deduplicateResults (9/10) c7Input = enforceDiversity 3 c7Input := by
    show enforceDiversity 3 (dedupScan (9/10) _ _) = _
    rw [show dedupScan (9/10)
        [⟨2, "d0", some [9, 3, 3, 1]⟩,
         ⟨3, "d0", none⟩, ⟨4, "d0", none⟩, ⟨5, "d0", none⟩, ⟨6, "d0", none⟩,
         ⟨7, "d0", none⟩, ⟨8, "d0", none⟩, ⟨9, "d0", none⟩, ⟨10, "d0", none⟩,
         ⟨11, "d1", none⟩, ⟨12, "d2", none⟩] [⟨1, "d0", some [1, 0, 0, 0]⟩] =
        c7Input from hscan]
  refine ⟨?_, cosineSim_c7, by norm_num, by decide, by decide, by decide, by decide,
    by decide, by decide⟩
  rw [heq]
  decide

theorem nodup_subset_length (l1 l2 : List WResult) (h1 : l1.Nodup)
    (hsub : l1 ⊆ l2) : l1.length ≤ l2.length := by
  calc l1.length = l1.toFinset.card := (List.toFinset_card_of_nodup h1).symm
    _ ≤ l2.toFinset.card := by
        refine Finset.card_le_card ?_
        intro x hx
        simp only [List.mem_toFinset] at hx ⊢
        exact hsub hx
    _ ≤ l2.length := l2.toFinset_card_le

theorem diversityFirstPass_shape (minD : ℕ) :
    ∀ (rs diverse : List WResult) (domains : List String),
      ∃ l : List WResult, diversityFirstPass minD rs diverse domains = diverse ++ l ∧
        l.Sublist rs := by
  intro rs
  induction rs with
  | nil =>
    intro diverse domains
    exact ⟨[], by simp [diversityFirstPass], List.nil_sublist _⟩
  | cons r rest ih =>
    intro diverse domains
    simp only [diversityFirstPass]
    by_cases hc : r.domain ∉ domains ∨ domains.length < minD
    · rw [if_pos hc]
      by_cases hb : 10 ≤ (diverse ++ [r]).length
      · rw [if_pos hb]
        exact ⟨[r], by simp, by simp⟩
      · rw [if_neg hb]
        obtain ⟨l, hl, hsub⟩ := ih (diverse ++ [r]) (dInsert r.domain domains)
        exact ⟨r :: l, by rw [hl]; simp, List.Sublist.cons₂ r hsub⟩
    · rw [if_neg hc]
      obtain ⟨l, hl, hsub⟩ := ih diverse domains
      exact ⟨l, hl, List.Sublist.cons r hsub⟩

theorem diversityFirstPass_length (minD : ℕ) :
    ∀ (rs diverse : List WResult) (domains : List String), diverse.length < 10 →
      (diversityFirstPass minD rs diverse domains).length ≤ 10 := by
  intro rs
  induction rs with
  | nil =>
    intro diverse domains h
    simpa [diversityFirstPass] using le_of_lt h
  | cons r rest ih =>
    intro diverse domains h
    simp only [diversityFirstPass]
    by_cases hc : r.domain ∉ domains ∨ domains.length < minD
    · rw [if_pos hc]
      by_cases hb : 10 ≤ (diverse ++ [r]).length
      · rw [if_pos hb]
        simp only [List.length_append, List.length_singleton]
        omega

      · rw [if_neg hb]
        exact ih (diverse ++ [r]) (dInsert r.domain domains) (by
          simp only [List.length_append, List.length_singleton] at hb ⊢
          omega)
    · rw [if_neg hc]
      exact ih diverse domains h

theorem diversitySecondPass_shape :
    ∀ (rs diverse : List WResult),
      ∃ l : List WResult, diversitySecondPass rs diverse = diverse ++ l ∧
        l.Sublist rs := by
  intro rs
  induction rs with
  | nil =>
    intro diverse
    exact ⟨[], by simp [diversitySecondPass], List.nil_sublist _⟩
  | cons r rest ih =>
    intro diverse
    simp only [diversitySecondPass]
    by_cases hc : r ∉ diverse ∧ diverse.length < 10
    · rw [if_pos hc]
      obtain ⟨l, hl, hsub⟩ := ih (diverse ++ [r])
      exact ⟨r :: l, by rw [hl]; simp, List.Sublist.cons₂ r hsub⟩
    · rw [if_neg hc]
      obtain ⟨l, hl, hsub⟩ := ih diverse
      exact ⟨l, hl, List.Sublist.cons r hsub⟩

theorem diversitySecondPass_length :
    ∀ (rs diverse : List WResult), diverse.length ≤ 10 →
      (diversitySecondPass rs diverse).length ≤ 10 := by
  intro rs
  induction rs with
  | nil =>
    intro diverse h
    simpa [diversitySecondPass] using h
  | cons r rest ih =>
    intro diverse h
    simp only [diversitySecondPass]
    by_cases hc : r ∉ diverse ∧ diverse.length < 10
    · rw [if_pos hc]
      exact ih (diverse ++ [r]) (by
        simp only [List.length_append, List.length_singleton]
        omega)
    · rw [if_neg hc]
      exact ih diverse h

theorem diversitySecondPass_nodup :
    ∀ (rs diverse : List WResult), diverse.Nodup →
      (diversitySecondPass rs diverse).Nodup := by
  intro rs
  induction rs with
  | nil =>
    intro diverse h
    simpa [diversitySecondPass] using h
  | cons r rest ih =>
    intro diverse h
    simp only [diversitySecondPass]
    by_cases hc : r ∉ diverse ∧ diverse.length < 10
    · rw [if_pos hc]
      refine ih (diverse ++ [r]) ?_
      simp [List.nodup_append, h, hc.1]
    · rw [if_neg hc]
      exact ih diverse h

theorem diversitySecondPass_complete :
    ∀ (rs diverse : List WResult), diverse.length ≤ 10 →
      (diversitySecondPass rs diverse).length = 10 ∨
        ∀ r ∈ rs, r ∈ diversitySecondPass rs diverse := by
  intro rs
  induction rs with
  | nil =>
    intro diverse h
    right
    intro r hr
    simp at hr
  | cons r rest ih =>
    intro diverse h
    simp only [diversitySecondPass]
    by_cases hc : r ∉ diverse ∧ diverse.length < 10
    · rw [if_pos hc]
      rcases ih (diverse ++ [r]) (by
          simp only [List.length_append, List.length_singleton]
          omega) with hfull | hall
      · exact Or.inl hfull
      · right
        intro x hx
        rcases List.mem_cons.mp hx with rfl | hx2
        · obtain ⟨l, hl, _⟩ := diversitySecondPass_shape rest (diverse ++ [x])
          rw [hl]
          simp
        · exact hall x hx2
    · rw [if_neg hc]
      push_neg at hc
      by_cases hmem : r ∈ diverse
      · rcases ih diverse h with hfull | hall
        · exact Or.inl hfull
        · right
          intro x hx
          rcases List.mem_cons.mp hx with rfl | hx2
          · obtain ⟨l, hl, _⟩ := diversitySecondPass_shape rest diverse
            rw [hl]
            exact List.mem_append_left _ hmem
          · exact hall x hx2
      · -- the keep-condition failed with `r` fresh, so the list is full
        have h10 : diverse.length = 10 := by
          have := hc hmem
          omega
        left
        obtain ⟨l, hl, hsub⟩ := diversitySecondPass_shape rest diverse
        have hlen := diversitySecondPass_length rest diverse (le_of_eq h10)
        rw [hl] at hlen ⊢
        simp only [List.length_append] at hlen ⊢
        omega

/-- Everything `_enforce_diversity` actually guarantees on a duplicate-free
input longer than `min_domains`: it returns `min 10 (len input)` results, all
drawn from the input — with no per-domain cap and no minimum-domains
guarantee. -/
theorem enforceDiversity_spec (minD : ℕ) (rs : List WResult)
    (hlen : minD < rs.length) (hnd : rs.Nodup) :
    (enforceDiversity minD rs).length = min 10 rs.length ∧
    ∀ r ∈ enforceDiversity minD rs, r ∈ rs := by
  unfold enforceDiversity
  rw [if_neg (by omega)]
  obtain ⟨l1, hl1, hsub1⟩ := diversityFirstPass_shape minD rs [] []
  rw [List.nil_append] at hl1
  have hD1nd : (diversityFirstPass minD rs [] []).Nodup := by
    rw [hl1]
    exact List.Sublist.nodup hsub1 hnd
  have hD1sub : ∀ x ∈ diversityFirstPass minD rs [] [], x ∈ rs := by
    rw [hl1]
    exact fun x hx => List.Sublist.subset hsub1 hx
  have hD1len : (diversityFirstPass minD rs [] []).length ≤ 10 :=
    diversityFirstPass_length minD rs [] [] (by simp)
  obtain ⟨l2, hl2, hsub2⟩ := diversitySecondPass_shape rs (diversityFirstPass minD rs [] [])
  have hSPnd : (diversitySecondPass rs (diversityFirstPass minD rs [] [])).Nodup :=
    diversitySecondPass_nodup rs _ hD1nd
  have hSPsub : ∀ x ∈ diversitySecondPass rs (diversityFirstPass minD rs [] []), x ∈ rs := by
    intro x hx
    rw [hl2] at hx
    rcases List.mem_append.mp hx with hx | hx
    · exact hD1sub x hx
    · exact List.Sublist.subset hsub2 hx
  have hSPlen : (diversitySecondPass rs (diversityFirstPass minD rs [] [])).length ≤ 10 :=
    diversitySecondPass_length rs _ hD1len
  refine ⟨?_, hSPsub⟩
  rcases diversitySecondPass_complete rs (diversityFirstPass minD rs [] []) hD1len
    with hfull | hall
  · have h10rs : 10 ≤ rs.length := by
      have := nodup_subset_length _ rs hSPnd hSPsub
      omega
    omega
  · have hrs_le : rs.length ≤
        (diversitySecondPass rs (diversityFirstPass minD rs [] [])).length :=
      nodup_subset_length rs _ hnd hall
    have hle_rs : (diversitySecondPass rs (diversityFirstPass minD rs [] [])).length ≤
        rs.length :=
      nodup_subset_length _ rs hSPnd hSPsub
    omega

/-- C7 amended: during fusion deduplication a candidate with a usable
embedding is dropped when its cosine similarity to some already-kept result
with a usable embedding *strictly exceeds* the threshold (default `0.9`), and
kept when the similarity is at most the threshold — so a pair at exactly
`0.9` stays; the subsequent diversity enforcement, on a duplicate-free list
longer than `min_domains`, returns exactly `min 10 (number of results)`
results drawn from the input, with no per-domain cap of 2 and no guarantee of
`min_domains` distinct domains. -/
theorem deduplicateResults_amended :
    (∀ (thr : ℝ) (x y : WResult) (vx vy : List ℚ),
      x.emb = some vx → y.emb = some vy → vx ≠ [] → vy ≠ [] →
      0 < vecNorm vx → ¬ vecNorm vy = 0 →
      thr < cosineSim vy vx →
      deduplicateResults thr [x, y] = [x]) ∧
    (∀ (thr : ℝ) (x y : WResult) (vx vy : List ℚ),
      x.emb = some vx → y.emb = some vy → vy ≠ [] →
      cosineSim vy vx ≤ thr →
      deduplicateResults thr [x, y] = [x, y]) ∧
    (∀ (minD : ℕ) (rs : List WResult), minD < rs.length → rs.Nodup →
      (enforceDiversity minD rs).length = min 10 rs.length ∧
      ∀ r ∈ enforceDiversity minD rs, r ∈ rs) := by
  refine ⟨?_, ?_, enforceDiversity_spec⟩
  · intro thr x y vx vy hx hy hvx hvy hnx hny hlt
    have hdup : IsDupAgainst thr vy [x] :=
      ⟨x, List.mem_singleton_self x, vx, hx, hvx, hnx, hlt⟩
    show enforceDiversity 3 (dedupScan thr [y] [x]) = [x]
    simp only [dedupScan, hy]
    rw [if_neg hvy, if_neg hny, if_pos hdup]
    simp [dedupScan, enforceDiversity]
  · intro thr x y vx vy hx hy hvy hle
    have hnd : ¬ IsDupAgainst thr vy [x] := by
      rintro ⟨x2, hx2, w, hw, hwne, hwpos, hlt2⟩
      rw [List.mem_singleton.mp hx2, hx] at hw
      rw [← Option.some.inj hw] at hlt2
      exact absurd hlt2 (not_lt.mpr hle)
    show enforceDiversity 3 (dedupScan thr [y] [x]) = [x, y]
    simp only [dedupScan, hy]
    by_cases hny : vecNorm vy = 0
    · rw [if_neg hvy, if_pos hny]
      simp [dedupScan, enforceDiversity]
    · rw [if_neg hvy, if_neg hny, if_neg hnd]
      simp [dedupScan, enforceDiversity]

theorem vecNorm_unit0 : vecNorm [(1:ℚ), 0] = 1 := by
  have := vecNorm_eval [(1:ℚ), 0] 1 (by norm_num [dotQ]) (by norm_num)
  simpa using this

theorem vecNorm_two0 : vecNorm [(2:ℚ), 0] = 2 := by
  have := vecNorm_eval [(2:ℚ), 0] 2 (by norm_num [dotQ]) (by norm_num)
  simpa using this

/-- Witness for C7 (amended): a parallel pair (similarity `1 > 0.9`)
collapses to the first result; the concrete `0.9`-pair of the counterexample
input stays intact; diversity enforcement on the twelve-result input keeps
exactly `min 10 12 = 10` of its results. -/
theorem deduplicateResults_amended_witness :
    deduplicateResults (9/10)
        [⟨1, "a", some [2, 0]⟩, ⟨2, "a", some [1, 0]⟩] = [⟨1, "a", some [2, 0]⟩] ∧
    deduplicateResults (9/10)
        [⟨1, "d0", some [1, 0, 0, 0]⟩, ⟨2, "d0", some [9, 3, 3, 1]⟩] =
      [⟨1, "d0", some [1, 0, 0, 0]⟩, ⟨2, "d0", some [9, 3, 3, 1]⟩] ∧
    (enforceDiversity 3 c7Input).length = min 10 c7Input.length ∧
    min 10 c7Input.length = 10 := by
  refine ⟨?_, ?_, ?_, by decide⟩
  · refine deduplicateResults_amended.1 (9/10) ⟨1, "a", some [2, 0]⟩
      ⟨2, "a", some [1, 0]⟩ [2, 0] [1, 0] rfl rfl (by simp) (by simp) ?_ ?_ ?_
    · rw [vecNorm_two0]
      norm_num
    · rw [vecNorm_unit0]
      norm_num
    · rw [cosineSim_parallel_unit]
      norm_num
  · refine deduplicateResults_amended.2.1 (9/10) ⟨1, "d0", some [1, 0, 0, 0]⟩
      ⟨2, "d0", some [9, 3, 3, 1]⟩ [1, 0, 0, 0] [9, 3, 3, 1] rfl rfl (by simp) ?_
    rw [cosineSim_c7]
  · exact (deduplicateResults_amended.2.2 3 c7Input (by decide) (by decide)).1

end RagSpec
